import Mathlib

/-!
Verification of the stride-node core of the bart multibit-trie routing table.

The Go source (src/node.go, src/base_index.go) is embedded shallowly:

* The external bit-set collaborator (spec 4.2; its implementation is not part
  of the sources, only its interface is specified) is modelled as the strictly
  ascending list of set indices.  `test` is membership, `set` is ordered
  insertion, `clear` removes the index, `rank i` counts set indices `<= i`
  (as in the bits-and-blooms library used by the source), `popcount` is the
  list length, and the `NextSet` iteration pattern
  `for { i, ok = bs.NextSet(i); ...; i++ }` visits exactly the elements of
  that list in ascending order; loops of that shape are therefore translated
  as folds / traversals over the list.  `Compact` only shrinks backing
  storage and is the identity in this model.
* Go methods mutate their receiver through a pointer; here every mutating
  operation returns the updated node instead.
* Go's zero value for the generic payload `V` is modelled by `default` of an
  `Inhabited` instance.
* Go slice indexing panics when out of range; those accesses are modelled
  with `getD`/`get?` (the divergence is only reachable when the popcount
  invariant is broken, which the invariant theorems below rule out).
-/

namespace Bart

/-! ## Bit-set model (spec 4.2 collaborator) -/

/-- A bit-set, represented as the strictly ascending list of its set indices. -/
abbrev BitSet := List Nat

/-- `bs.Test i`: membership. -/
def bsTest (s : BitSet) (i : Nat) : Bool := s.contains i

/-- `bs.Set i`: ordered insertion (no duplicates). -/
def bsInsert (i : Nat) : BitSet -> BitSet
  | [] => [i]
  | j :: s => if i < j then i :: j :: s else if i = j then j :: s else j :: bsInsert i s

/-- `bs.Clear i`: remove the index. -/
def bsClear (i : Nat) : BitSet -> BitSet
  | [] => []
  | j :: s => if j = i then s else j :: bsClear i s

/-- `bs.Rank i`: number of set bits with index `<= i` (inclusive, as in the
bits-and-blooms bit-set used by the source). -/
def bsRank (s : BitSet) (i : Nat) : Nat := s.countP (fun j => decide (j <= i))

/-! ## Base-index codec (src/base_index.go) -/

/-- `strideLen`, src/node.go line 15. -/
def strideLen : Nat := 8

/-- `maxNodeChildren`, src/node.go line 17. -/
def maxNodeChildren : Nat := 256

/-- `maxNodePrefixes`, src/node.go line 18. -/
def maxNodePrefixes : Nat := 512

/-- `hostMasks` lookup table, src/base_index.go lines 10-20. -/
def hostMasks : List Nat := [255, 127, 63, 31, 15, 7, 3, 1, 0]

/-- `firstHostIndex`, src/base_index.go line 25. -/
def firstHostIndex : Nat := 256

/-- `lastHostIndex`, src/base_index.go line 28. -/
def lastHostIndex : Nat := 511

/-- `prefixToBaseIndex(octet, prefixLen)`, src/base_index.go lines 74-76:
`uint(octet>>(strideLen-prefixLen)) + (1 << prefixLen)`.  The octet is a Go
`byte` (`< 256`); `prefixLen` ranges over `[0, 8]`. -/
def prefixToBaseIndex (octet prefixLen : Nat) : Nat :=
  (octet >>> (strideLen - prefixLen)) + (1 <<< prefixLen)

/-- `octetToBaseIndex(octet)`, src/base_index.go lines 80-82. -/
def octetToBaseIndex (octet : Nat) : Nat := octet + firstHostIndex

/-- `baseIdx2Pfx` lookup table, src/base_index.go lines 118-634, transcribed
entry for entry; entry 0 is the invalid marker `{0, -1}`. -/
def baseIdx2Pfx : List (Nat × Int) := [
  (0, -1), (0, 0), (0, 1), (128, 1), (0, 2), (64, 2), (128, 2), (192, 2),
  (0, 3), (32, 3), (64, 3), (96, 3), (128, 3), (160, 3), (192, 3), (224, 3),
  (0, 4), (16, 4), (32, 4), (48, 4), (64, 4), (80, 4), (96, 4), (112, 4),
  (128, 4), (144, 4), (160, 4), (176, 4), (192, 4), (208, 4), (224, 4), (240, 4),
  (0, 5), (8, 5), (16, 5), (24, 5), (32, 5), (40, 5), (48, 5), (56, 5),
  (64, 5), (72, 5), (80, 5), (88, 5), (96, 5), (104, 5), (112, 5), (120, 5),
  (128, 5), (136, 5), (144, 5), (152, 5), (160, 5), (168, 5), (176, 5), (184, 5),
  (192, 5), (200, 5), (208, 5), (216, 5), (224, 5), (232, 5), (240, 5), (248, 5),
  (0, 6), (4, 6), (8, 6), (12, 6), (16, 6), (20, 6), (24, 6), (28, 6),
  (32, 6), (36, 6), (40, 6), (44, 6), (48, 6), (52, 6), (56, 6), (60, 6),
  (64, 6), (68, 6), (72, 6), (76, 6), (80, 6), (84, 6), (88, 6), (92, 6),
  (96, 6), (100, 6), (104, 6), (108, 6), (112, 6), (116, 6), (120, 6), (124, 6),
  (128, 6), (132, 6), (136, 6), (140, 6), (144, 6), (148, 6), (152, 6), (156, 6),
  (160, 6), (164, 6), (168, 6), (172, 6), (176, 6), (180, 6), (184, 6), (188, 6),
  (192, 6), (196, 6), (200, 6), (204, 6), (208, 6), (212, 6), (216, 6), (220, 6),
  (224, 6), (228, 6), (232, 6), (236, 6), (240, 6), (244, 6), (248, 6), (252, 6),
  (0, 7), (2, 7), (4, 7), (6, 7), (8, 7), (10, 7), (12, 7), (14, 7),
  (16, 7), (18, 7), (20, 7), (22, 7), (24, 7), (26, 7), (28, 7), (30, 7),
  (32, 7), (34, 7), (36, 7), (38, 7), (40, 7), (42, 7), (44, 7), (46, 7),
  (48, 7), (50, 7), (52, 7), (54, 7), (56, 7), (58, 7), (60, 7), (62, 7),
  (64, 7), (66, 7), (68, 7), (70, 7), (72, 7), (74, 7), (76, 7), (78, 7),
  (80, 7), (82, 7), (84, 7), (86, 7), (88, 7), (90, 7), (92, 7), (94, 7),
  (96, 7), (98, 7), (100, 7), (102, 7), (104, 7), (106, 7), (108, 7), (110, 7),
  (112, 7), (114, 7), (116, 7), (118, 7), (120, 7), (122, 7), (124, 7), (126, 7),
  (128, 7), (130, 7), (132, 7), (134, 7), (136, 7), (138, 7), (140, 7), (142, 7),
  (144, 7), (146, 7), (148, 7), (150, 7), (152, 7), (154, 7), (156, 7), (158, 7),
  (160, 7), (162, 7), (164, 7), (166, 7), (168, 7), (170, 7), (172, 7), (174, 7),
  (176, 7), (178, 7), (180, 7), (182, 7), (184, 7), (186, 7), (188, 7), (190, 7),
  (192, 7), (194, 7), (196, 7), (198, 7), (200, 7), (202, 7), (204, 7), (206, 7),
  (208, 7), (210, 7), (212, 7), (214, 7), (216, 7), (218, 7), (220, 7), (222, 7),
  (224, 7), (226, 7), (228, 7), (230, 7), (232, 7), (234, 7), (236, 7), (238, 7),
  (240, 7), (242, 7), (244, 7), (246, 7), (248, 7), (250, 7), (252, 7), (254, 7),
  (0, 8), (1, 8), (2, 8), (3, 8), (4, 8), (5, 8), (6, 8), (7, 8),
  (8, 8), (9, 8), (10, 8), (11, 8), (12, 8), (13, 8), (14, 8), (15, 8),
  (16, 8), (17, 8), (18, 8), (19, 8), (20, 8), (21, 8), (22, 8), (23, 8),
  (24, 8), (25, 8), (26, 8), (27, 8), (28, 8), (29, 8), (30, 8), (31, 8),
  (32, 8), (33, 8), (34, 8), (35, 8), (36, 8), (37, 8), (38, 8), (39, 8),
  (40, 8), (41, 8), (42, 8), (43, 8), (44, 8), (45, 8), (46, 8), (47, 8),
  (48, 8), (49, 8), (50, 8), (51, 8), (52, 8), (53, 8), (54, 8), (55, 8),
  (56, 8), (57, 8), (58, 8), (59, 8), (60, 8), (61, 8), (62, 8), (63, 8),
  (64, 8), (65, 8), (66, 8), (67, 8), (68, 8), (69, 8), (70, 8), (71, 8),
  (72, 8), (73, 8), (74, 8), (75, 8), (76, 8), (77, 8), (78, 8), (79, 8),
  (80, 8), (81, 8), (82, 8), (83, 8), (84, 8), (85, 8), (86, 8), (87, 8),
  (88, 8), (89, 8), (90, 8), (91, 8), (92, 8), (93, 8), (94, 8), (95, 8),
  (96, 8), (97, 8), (98, 8), (99, 8), (100, 8), (101, 8), (102, 8), (103, 8),
  (104, 8), (105, 8), (106, 8), (107, 8), (108, 8), (109, 8), (110, 8), (111, 8),
  (112, 8), (113, 8), (114, 8), (115, 8), (116, 8), (117, 8), (118, 8), (119, 8),
  (120, 8), (121, 8), (122, 8), (123, 8), (124, 8), (125, 8), (126, 8), (127, 8),
  (128, 8), (129, 8), (130, 8), (131, 8), (132, 8), (133, 8), (134, 8), (135, 8),
  (136, 8), (137, 8), (138, 8), (139, 8), (140, 8), (141, 8), (142, 8), (143, 8),
  (144, 8), (145, 8), (146, 8), (147, 8), (148, 8), (149, 8), (150, 8), (151, 8),
  (152, 8), (153, 8), (154, 8), (155, 8), (156, 8), (157, 8), (158, 8), (159, 8),
  (160, 8), (161, 8), (162, 8), (163, 8), (164, 8), (165, 8), (166, 8), (167, 8),
  (168, 8), (169, 8), (170, 8), (171, 8), (172, 8), (173, 8), (174, 8), (175, 8),
  (176, 8), (177, 8), (178, 8), (179, 8), (180, 8), (181, 8), (182, 8), (183, 8),
  (184, 8), (185, 8), (186, 8), (187, 8), (188, 8), (189, 8), (190, 8), (191, 8),
  (192, 8), (193, 8), (194, 8), (195, 8), (196, 8), (197, 8), (198, 8), (199, 8),
  (200, 8), (201, 8), (202, 8), (203, 8), (204, 8), (205, 8), (206, 8), (207, 8),
  (208, 8), (209, 8), (210, 8), (211, 8), (212, 8), (213, 8), (214, 8), (215, 8),
  (216, 8), (217, 8), (218, 8), (219, 8), (220, 8), (221, 8), (222, 8), (223, 8),
  (224, 8), (225, 8), (226, 8), (227, 8), (228, 8), (229, 8), (230, 8), (231, 8),
  (232, 8), (233, 8), (234, 8), (235, 8), (236, 8), (237, 8), (238, 8), (239, 8),
  (240, 8), (241, 8), (242, 8), (243, 8), (244, 8), (245, 8), (246, 8), (247, 8),
  (248, 8), (249, 8), (250, 8), (251, 8), (252, 8), (253, 8), (254, 8), (255, 8)
]

/-- `baseIndexToPrefix(baseIdx)`, src/base_index.go lines 103-106: table
lookup.  The Go array access panics for `baseIdx >= 512`; out-of-range
lookups are mapped to the invalid entry here. -/
def baseIndexToPfx (baseIdx : Nat) : Nat × Int := baseIdx2Pfx.getD baseIdx (0, -1)

/-- `lowerUpperBound(idx)`, src/base_index.go lines 90-93.  `hostMasks` is
indexed with the `bits` of the looked-up entry; for the invalid entry 0 the
Go code would panic (`hostMasks[-1]`), modelled by `Int.toNat` clamping. -/
def lowerUpperBound (idx : Nat) : Nat × Nat :=
  let p := baseIndexToPfx idx
  (octetToBaseIndex p.1, octetToBaseIndex (p.1 ||| hostMasks.getD p.2.toNat 0))

/-- Modelled from the spec: `lastHostIndexOfPrefix` is called by
`overlapsPrefix` (src/node.go line 420) but the file defining it is not under
src/.  Spec 4.1/4.5: the upper bound of the host range of `(octet, len)` is
`octet_to_host_base(octet | (0xFF >> len))`, and `hostMasks[len] = 0xFF >> len`. -/
def lastHostIndexOfPfx (octet bits : Nat) : Nat :=
  octetToBaseIndex (octet ||| hostMasks.getD bits 0)

/-! ## Stride node (src/node.go) -/

/-- `node[V]`, src/node.go lines 35-42: the two bit-sets plus the two
popcount-compressed parallel slices (values and child pointers). -/
inductive Node (V : Type) : Type where
  | mk (prefixesBitset childrenBitset : BitSet) (prefixes : List V) (children : List (Node V)) : Node V

variable {V : Type}

/-- Field `prefixesBitset` of `node[V]`. -/
def Node.prefixesBitset : Node V → BitSet
  | .mk pb _ _ _ => pb

/-- Field `childrenBitset` of `node[V]`. -/
def Node.childrenBitset : Node V → BitSet
  | .mk _ cb _ _ => cb

/-- Field `prefixes` of `node[V]`. -/
def Node.prefixes : Node V → List V
  | .mk _ _ ps _ => ps

/-- Field `children` of `node[V]`. -/
def Node.children : Node V → List (Node V)
  | .mk _ _ _ cs => cs

/-- `newNode`, src/node.go lines 45-50 (fresh bit-sets, nil slices). -/
def Node.newNode (V : Type) : Node V := .mk [] [] [] []

/-- `isEmpty`, src/node.go lines 53-55. -/
def Node.isEmpty (n : Node V) : Bool := n.prefixes.isEmpty && n.children.isEmpty

/-- `prefixRank(baseIdx)`, src/node.go lines 61-64: `int(Rank(baseIdx)) - 1`
(an `int` in Go, hence `Int` here: it is `-1` when no bit `<= baseIdx` is set). -/
def Node.prefixRank (n : Node V) (baseIdx : Nat) : Int :=
  (bsRank n.prefixesBitset baseIdx : Int) - 1

/-- `childRank(octet)`, src/node.go lines 230-233. -/
def Node.childRank (n : Node V) (octet : Nat) : Int :=
  (bsRank n.childrenBitset octet : Int) - 1

/-- `insertIdx(baseIdx, val)`, src/node.go lines 73-83.  In the new-bit branch
the rank is recomputed after the bit is set, as in the source. -/
def Node.insertIdx (n : Node V) (baseIdx : Nat) (val : V) : Node V :=
  if bsTest n.prefixesBitset baseIdx then
    .mk n.prefixesBitset n.childrenBitset
      (n.prefixes.set (n.prefixRank baseIdx).toNat val) n.children
  else
    let pb := bsInsert baseIdx n.prefixesBitset
    .mk pb n.childrenBitset
      (n.prefixes.insertIdx ((bsRank pb baseIdx : Int) - 1).toNat val) n.children

/-- `insertPrefix(octet, prefixLen, val)`, src/node.go lines 68-70. -/
def Node.insertPfx (n : Node V) (octet prefixLen : Nat) (val : V) : Node V :=
  n.insertIdx (prefixToBaseIndex octet prefixLen) val

/-- `deletePrefix(octet, prefixLen)`, src/node.go lines 87-105; returns the
updated node and `wasPresent`. -/
def Node.deletePfx (n : Node V) (octet prefixLen : Nat) : Node V × Bool :=
  let baseIdx := prefixToBaseIndex octet prefixLen
  if bsTest n.prefixesBitset baseIdx then
    (.mk (bsClear baseIdx n.prefixesBitset) n.childrenBitset
      (n.prefixes.eraseIdx (n.prefixRank baseIdx).toNat) n.children, true)
  else (n, false)

/-- `updatePrefix(octet, prefixLen, cb)`, src/node.go lines 108-140. -/
def Node.updatePfx [Inhabited V] (n : Node V) (octet prefixLen : Nat)
    (cb : V → Bool → V) : Node V × V :=
  let baseIdx := prefixToBaseIndex octet prefixLen
  let ok := bsTest n.prefixesBitset baseIdx
  let rnk := (n.prefixRank baseIdx).toNat
  let cur := if ok then n.prefixes.getD rnk default else default
  let val := cb cur ok
  if ok then
    (.mk n.prefixesBitset n.childrenBitset (n.prefixes.set rnk val) n.children, val)
  else
    let pb := bsInsert baseIdx n.prefixesBitset
    (.mk pb n.childrenBitset
      (n.prefixes.insertIdx ((bsRank pb baseIdx : Int) - 1).toNat val) n.children, val)

/-- `lpmByIndex(idx)`, src/node.go lines 147-166: backtracking loop
`idx >>= 1` through the complete binary tree (`>> 1` is division by two). -/
def Node.lpmByIndex [Inhabited V] (n : Node V) (idx : Nat) : Nat × V × Bool :=
  if bsTest n.prefixesBitset idx then
    (idx, n.prefixes.getD (n.prefixRank idx).toNat default, true)
  else if idx = 0 then (0, default, false)
  else n.lpmByIndex (idx / 2)
termination_by idx
decreasing_by simp_wf; omega

/-- `getValByIndex(baseIdx)`, src/node.go lines 179-184. -/
def Node.getValByIndex [Inhabited V] (n : Node V) (baseIdx : Nat) : V × Bool :=
  if bsTest n.prefixesBitset baseIdx then
    (n.prefixes.getD (n.prefixRank baseIdx).toNat default, true)
  else (default, false)

/-- `getValByPrefix(octet, bits)`, src/node.go lines 187-189. -/
def Node.getValByPfx [Inhabited V] (n : Node V) (octet bits : Nat) : V × Bool :=
  n.getValByIndex (prefixToBaseIndex octet bits)

/-- `insertChild(octet, child)`, src/node.go lines 236-246. -/
def Node.insertChild (n : Node V) (octet : Nat) (child : Node V) : Node V :=
  if bsTest n.childrenBitset octet then
    .mk n.prefixesBitset n.childrenBitset n.prefixes
      (n.children.set (n.childRank octet).toNat child)
  else
    let cb := bsInsert octet n.childrenBitset
    .mk n.prefixesBitset cb n.prefixes
      (n.children.insertIdx ((bsRank cb octet : Int) - 1).toNat child)

/-- `deleteChild(octet)`, src/node.go lines 249-262. -/
def Node.deleteChild (n : Node V) (octet : Nat) : Node V :=
  if bsTest n.childrenBitset octet then
    .mk n.prefixesBitset (bsClear octet n.childrenBitset) n.prefixes
      (n.children.eraseIdx (n.childRank octet).toNat)
  else n

/-- `getChild(octet)`, src/node.go lines 265-271: `nil` (here `none`) when the
bit is unset; a set bit with an out-of-range rank would panic in Go and is
`none` here as well (unreachable under the popcount invariant). -/
def Node.getChild (n : Node V) (octet : Nat) : Option (Node V) :=
  if bsTest n.childrenBitset octet then n.children.get? (n.childRank octet).toNat
  else none

/-- Children are structurally smaller, for the termination of the recursive
node operations. -/
theorem Node.sizeOf_lt_of_mem_children {n : Node V} {c : Node V}
    (h : c ∈ n.children) : sizeOf c < sizeOf n := by
  cases n with
  | mk pb cb ps cs =>
    have := List.sizeOf_lt_of_mem h
    simp only [Node.children] at h
    simp only [Node.mk.sizeOf_spec]
    have h2 := List.sizeOf_lt_of_mem h
    omega

/-- `getChild` returns an element of `children`. -/
theorem Node.getChild_mem {n : Node V} {octet : Nat} {c : Node V}
    (h : n.getChild octet = some c) : c ∈ n.children := by
  unfold Node.getChild at h
  split at h
  · exact List.get?_mem h
  · exact absurd h (by simp)

/-- `cloneRec`, src/node.go lines 499-517: empty nodes short-circuit to a
fresh node; otherwise bit-sets and the value slice are copied and every child
is cloned recursively (value semantics make the copies implicit here). -/
def Node.cloneRec (n : Node V) : Node V :=
  if n.isEmpty then .mk [] [] [] []
  else .mk n.prefixesBitset n.childrenBitset n.prefixes
    (n.children.attach.map fun c => Node.cloneRec c.1)
termination_by sizeOf n
decreasing_by exact Node.sizeOf_lt_of_mem_children c.2

mutual

/-- `unionRec(o)`, src/node.go lines 464-497, together with its child loop
`Node.unionGo`.  The prefix loop iterates `NextSet` over the other node's
prefix bit-set inserting each value into the receiver; the child loop either
attaches a deep clone (octet only in `o`) or recurses (octet in both).  In Go
the recursion mutates the existing child in place through its pointer; here
the updated child is written back with `insertChild`, which overwrites the
slot when the bit is already set. -/
def Node.unionRec [Inhabited V] (n o : Node V) : Node V :=
  Node.unionGo
    (o.prefixesBitset.foldl (fun acc oIdx => acc.insertIdx oIdx (o.getValByIndex oIdx).1) n)
    o o.childrenBitset
termination_by (sizeOf o, o.childrenBitset.length + 1)

/-- The `for all children in other node` loop of `unionRec`,
src/node.go lines 478-496; `l` is the remaining part of `o.childrenBitset`.
A set child octet whose `getChild` is `none` would be a nil-pointer panic in
Go (unreachable under the popcount invariant); it is skipped here. -/
def Node.unionGo [Inhabited V] (acc o : Node V) : List Nat → Node V
  | [] => acc
  | oOctet :: rest =>
    Node.unionGo
      (match h : o.getChild oOctet with
       | none => acc
       | some oNode =>
         have _hsz : sizeOf oNode < sizeOf o :=
           Node.sizeOf_lt_of_mem_children (Node.getChild_mem h)
         match acc.getChild oOctet with
         | none => acc.insertChild oOctet oNode.cloneRec
         | some nNode => acc.insertChild oOctet (nNode.unionRec oNode))
      o rest
termination_by l => (sizeOf o, l.length)

end

/-- The backtracking chain `idx, idx >> 1, ..., 1` through the complete
binary tree (spec 4.3, claim C1). -/
def chain : Nat → List Nat
  | 0 => []
  | i + 1 => (i + 1) :: chain ((i + 1) / 2)
decreasing_by omega

/-- Allotment array (`[maxNodePrefixes]bool` in Go), as a function; marking
the host range `[lo, hi]` of one prefix (src/node.go lines 305-311). -/
def markRange (lo hi : Nat) (m : Nat → Bool) : Nat → Bool :=
  fun i => (decide (lo ≤ i) && decide (i ≤ hi)) || m i

/-- Scan of an allotment array over `[lo, hi]` (the early-exit test inside
the marking loops, and the full host-range scan of src/node.go lines 341-345). -/
def anyMarked (m : Nat → Bool) (lo hi : Nat) : Bool :=
  (List.range' lo (hi + 1 - lo)).any m

/-- Tail of the zig-zag loop of `overlapsRec` once `n`'s set indices are
exhausted, src/node.go lines 315-333: each remaining round consumes the next
set index of `o`, returning `true` early if `n`'s allotment array already has
a host index of its range, else marking the range in `o`'s array. -/
def zigzagO : List Nat → (Nat → Bool) → (Nat → Bool) →
    Bool × (Nat → Bool) × (Nat → Bool)
  | [], nAllot, oAllot => (false, nAllot, oAllot)
  | oIdx :: os, nAllot, oAllot =>
    let q := lowerUpperBound oIdx
    if anyMarked nAllot q.1 q.2 then (true, nAllot, oAllot)
    else zigzagO os nAllot (markRange q.1 q.2 oAllot)

/-- Phase 1 of `overlapsRec`, src/node.go lines 292-337: the zig-zag loop.
Each round consumes the next set prefix index of `n` (marking its host range
in `n`'s allotment array, returning `true` early if `o`'s array already has
one of those indices) and then symmetrically the next set index of `o`; once
one side is exhausted the loop keeps draining the other side (`zigzagO`).
Returns the early-exit flag and the two allotment arrays. -/
def zigzag : List Nat → List Nat → (Nat → Bool) → (Nat → Bool) →
    Bool × (Nat → Bool) × (Nat → Bool)
  | [], os, nAllot, oAllot => zigzagO os nAllot oAllot
  | nIdx :: ns, os, nAllot, oAllot =>
    let p := lowerUpperBound nIdx
    if anyMarked oAllot p.1 p.2 then (true, nAllot, oAllot)
    else
      let nAllot := markRange p.1 p.2 nAllot
      match os with
      | [] => zigzag ns [] nAllot oAllot
      | oIdx :: os =>
        let q := lowerUpperBound oIdx
        if anyMarked nAllot q.1 q.2 then (true, nAllot, oAllot)
        else zigzag ns os nAllot (markRange q.1 q.2 oAllot)

mutual

/-- `overlapsRec(o)`, src/node.go lines 285-403, with its recursive-descent
loop `Node.overlapsChildren`.  Phase 1 is the zig-zag of the two prefix sets
followed by the guarded full scan of the host range; phase 2 tests each
node's child octets against the other node's (fully built) allotment array
(the Go zig-zag over the child bit-sets checks fixed arrays, so it is the
disjunction of the two scans); phase 3 walks all 256 octets and recurses
where both nodes have a child (`nOctets`/`oOctets` in Go hold exactly the
child bit-sets). -/
def Node.overlapsRec (n o : Node V) : Bool :=
  match zigzag n.prefixesBitset o.prefixesBitset (fun _ => false) (fun _ => false) with
  | (true, _, _) => true
  | (false, nAllot, oAllot) =>
    if (decide (0 < n.prefixes.length) && decide (0 < o.prefixes.length)) &&
        anyMarked (fun i => nAllot i && oAllot i) firstHostIndex lastHostIndex then true
    else if n.childrenBitset.any (fun oct => oAllot (oct + firstHostIndex)) then true
    else if o.childrenBitset.any (fun oct => nAllot (oct + firstHostIndex)) then true
    else Node.overlapsChildren n o (List.range maxNodeChildren)
termination_by (sizeOf n + sizeOf o, maxNodeChildren + 2)

/-- Phase 3 loop of `overlapsRec`, src/node.go lines 387-400: for every octet
where both nodes have a child, recurse; a nil child (set bit, rank out of
range) would panic in Go and yields `false` here. -/
def Node.overlapsChildren (n o : Node V) : List Nat → Bool
  | [] => false
  | i :: rest =>
    (bsTest n.childrenBitset i && bsTest o.childrenBitset i &&
      match hn : n.getChild i, ho : o.getChild i with
      | some nc, some oc =>
        have _h1 : sizeOf nc < sizeOf n :=
          Node.sizeOf_lt_of_mem_children (Node.getChild_mem hn)
        have _h2 : sizeOf oc < sizeOf o :=
          Node.sizeOf_lt_of_mem_children (Node.getChild_mem ho)
        Node.overlapsRec nc oc
      | _, _ => false) ||
    Node.overlapsChildren n o rest
termination_by l => (sizeOf n + sizeOf o, l.length)

end

/-- `overlapsPrefix(octet, pfxLen)`, src/node.go lines 406-460.  Step 2 is
the `NextSet` scan of the prefix bit-set starting at `pfxIdx << 1`, step 3
the scan of the child bit-set starting at `octet`; both are translated as
filtered traversals of the set-index lists. -/
def Node.overlapsPfx [Inhabited V] (n : Node V) (octet pfxLen : Nat) : Bool :=
  let pfxIdx := prefixToBaseIndex octet pfxLen
  if (n.lpmByIndex pfxIdx).2.2 then true
  else
    let pfxLowerBound := octetToBaseIndex octet
    let pfxUpperBound := lastHostIndexOfPfx octet pfxLen
    if n.prefixesBitset.any (fun routeIdx =>
        decide (pfxIdx <<< 1 ≤ routeIdx) &&
        (decide (pfxLowerBound ≤ (lowerUpperBound routeIdx).1) &&
         decide ((lowerUpperBound routeIdx).2 ≤ pfxUpperBound))) then true
    else
      n.childrenBitset.any (fun childOctet =>
        decide (octet ≤ childOctet) &&
        (decide (pfxLowerBound ≤ childOctet + firstHostIndex) &&
         decide (childOctet + firstHostIndex ≤ pfxUpperBound)))

/-- Observer: descend from a node along a list of octets via `getChild`
(the octet path of the enclosing trie). -/
def Node.getNodeAt (n : Node V) : List Nat → Option (Node V)
  | [] => some n
  | oct :: rest =>
    match n.getChild oct with
    | none => none
    | some c => c.getNodeAt rest

/-! ## Bit-set lemmas -/

theorem bsTest_iff {s : BitSet} {i : Nat} : bsTest s i = true ↔ i ∈ s := by
  simp [bsTest]

theorem mem_bsInsert {i j : Nat} : ∀ {s : BitSet}, j ∈ bsInsert i s ↔ j = i ∨ j ∈ s
  | [] => by simp [bsInsert]
  | k :: s => by
    simp only [bsInsert]
    by_cases h1 : i < k
    · rw [if_pos h1]
      simp
    · rw [if_neg h1]
      by_cases h2 : i = k
      · rw [if_pos h2]
        subst h2
        simp only [List.mem_cons]
        tauto
      · rw [if_neg h2]
        simp only [List.mem_cons, @mem_bsInsert i j s]
        tauto

theorem sorted_bsInsert (i : Nat) : ∀ {s : BitSet}, s.Sorted (· < ·) →
    (bsInsert i s).Sorted (· < ·)
  | [], _ => by simp [bsInsert]
  | k :: s, h => by
    rw [List.sorted_cons] at h
    simp only [bsInsert]
    by_cases h1 : i < k
    · rw [if_pos h1]
      refine List.sorted_cons.2 ⟨?_, List.sorted_cons.2 h⟩
      intro b hb
      rcases List.mem_cons.1 hb with rfl | hb
      · exact h1
      · exact lt_trans h1 (h.1 b hb)
    · rw [if_neg h1]
      by_cases h2 : i = k
      · rw [if_pos h2]
        exact List.sorted_cons.2 h
      · rw [if_neg h2]
        refine List.sorted_cons.2 ⟨?_, sorted_bsInsert i h.2⟩
        intro b hb
        rcases mem_bsInsert.1 hb with rfl | hb
        · omega
        · exact h.1 b hb

theorem bsInsert_of_mem {i : Nat} : ∀ {s : BitSet}, s.Sorted (· < ·) → i ∈ s →
    bsInsert i s = s
  | [], _, hm => by simp at hm
  | k :: s, hs, hm => by
    rw [List.sorted_cons] at hs
    rcases List.mem_cons.1 hm with rfl | hm
    · simp [bsInsert]
    · have hk := hs.1 i hm
      simp only [bsInsert]
      rw [if_neg (by omega), if_neg (by omega), bsInsert_of_mem hs.2 hm]

theorem length_bsInsert_of_not_mem {i : Nat} : ∀ {s : BitSet}, i ∉ s →
    (bsInsert i s).length = s.length + 1
  | [], _ => by simp [bsInsert]
  | k :: s, hm => by
    simp only [List.mem_cons, not_or] at hm
    simp only [bsInsert]
    split
    · simp
    · rw [if_neg hm.1]
      simp [length_bsInsert_of_not_mem hm.2]

theorem bsRank_cons {k : Nat} {s : BitSet} {i : Nat} :
    bsRank (k :: s) i = bsRank s i + if k ≤ i then 1 else 0 := by
  simp [bsRank, List.countP_cons]

theorem bsRank_le_length {s : BitSet} {i : Nat} : bsRank s i ≤ s.length :=
  List.countP_le_length _

theorem bsRank_pos_of_mem {s : BitSet} {i : Nat} (h : i ∈ s) : 1 ≤ bsRank s i := by
  induction s with
  | nil => simp at h
  | cons k s ih =>
    rw [bsRank_cons]
    rcases List.mem_cons.1 h with rfl | h
    · simp
    · have := ih h; omega

theorem bsRank_mono {s : BitSet} {i j : Nat} (h : i ≤ j) : bsRank s i ≤ bsRank s j := by
  induction s with
  | nil => simp [bsRank]
  | cons k s ih =>
    rw [bsRank_cons, bsRank_cons]
    have : (if k ≤ i then 1 else 0) ≤ if k ≤ j then 1 else 0 := by
      split <;> split <;> omega
    omega

theorem bsRank_lt_of_lt_mem {s : BitSet} {i j : Nat} (hij : i < j) (hj : j ∈ s) :
    bsRank s i < bsRank s j := by
  induction s with
  | nil => simp at hj
  | cons k s ih =>
    rw [bsRank_cons, bsRank_cons]
    rcases List.mem_cons.1 hj with rfl | hj
    · have h1 : bsRank s i ≤ bsRank s j := bsRank_mono (by omega)
      rw [if_pos (le_refl j), if_neg (by omega)]
      omega
    · have := ih hj
      have : (if k ≤ i then 1 else 0) ≤ if k ≤ j then 1 else 0 := by
        split <;> split <;> omega
      omega

theorem bsRank_inj {s : BitSet} {i j : Nat} (hi : i ∈ s) (hj : j ∈ s)
    (h : bsRank s i = bsRank s j) : i = j := by
  rcases Nat.lt_trichotomy i j with hlt | rfl | hlt
  · exact absurd h (Nat.ne_of_lt (bsRank_lt_of_lt_mem hlt hj))
  · rfl
  · exact absurd h.symm (Nat.ne_of_lt (bsRank_lt_of_lt_mem hlt hi))

theorem get?_bsRank_of_mem : ∀ {s : BitSet}, s.Sorted (· < ·) → ∀ {i : Nat}, i ∈ s →
    s.get? (bsRank s i - 1) = some i
  | [], _, _, hm => by simp at hm
  | k :: s, hs, i, hm => by
    rw [List.sorted_cons] at hs
    rw [bsRank_cons]
    rcases List.mem_cons.1 hm with h1 | hm
    · have h0 : bsRank s i = 0 := by
        rw [bsRank, List.countP_eq_zero]
        intro j hj
        simp only [decide_eq_true_eq]
        have := hs.1 j hj
        omega
      rw [h0, if_pos (by omega)]
      simpa using h1.symm
    · have hk := hs.1 i hm
      have h1 : 1 ≤ bsRank s i := bsRank_pos_of_mem hm
      rw [if_pos (by omega)]
      have h2 : bsRank s i + 1 - 1 = (bsRank s i - 1) + 1 := by omega
      rw [h2, List.get?_cons_succ]
      exact get?_bsRank_of_mem hs.2 hm

theorem bsRank_get : ∀ {s : BitSet}, s.Sorted (· < ·) → ∀ {k : Nat} (hk : k < s.length),
    bsRank s (s.get ⟨k, hk⟩) = k + 1
  | [], _, k, hk => by simp at hk
  | j :: s, hs, k, hk => by
    rw [List.sorted_cons] at hs
    match k with
    | 0 =>
      show bsRank (j :: s) j = 0 + 1
      have h0 : bsRank s j = 0 := by
        rw [bsRank, List.countP_eq_zero]
        intro x hx
        simp only [decide_eq_true_eq]
        have := hs.1 x hx
        omega
      rw [bsRank_cons, h0, if_pos (le_refl j)]
    | k + 1 =>
      have hk' : k < s.length := by simpa using hk
      have hmem : s.get ⟨k, hk'⟩ ∈ s := s.get_mem k hk'
      have hj := hs.1 _ hmem
      have hcons : (j :: s).get ⟨k + 1, hk⟩ = s.get ⟨k, hk'⟩ := rfl
      rw [hcons, bsRank_cons, bsRank_get hs.2 hk', if_pos (by omega)]

theorem bsRank_bsInsert_of_not_mem {i : Nat} : ∀ {s : BitSet}, i ∉ s → ∀ {j : Nat},
    bsRank (bsInsert i s) j = bsRank s j + if i ≤ j then 1 else 0
  | [], _, j => by
    simp only [bsInsert, bsRank_cons]
  | k :: s, hm, j => by
    simp only [List.mem_cons, not_or] at hm
    simp only [bsInsert]
    split
    · simp only [bsRank_cons]
    · split
      · rename_i hik
        exact absurd hik hm.1
      · simp only [bsRank_cons, bsRank_bsInsert_of_not_mem hm.2]
        all_goals split_ifs <;> omega

theorem mem_bsClear {i j : Nat} : ∀ {s : BitSet}, s.Sorted (· < ·) →
    (j ∈ bsClear i s ↔ j ∈ s ∧ j ≠ i)
  | [], _ => by simp [bsClear]
  | k :: s, hs => by
    rw [List.sorted_cons] at hs
    simp only [bsClear]
    split
    · subst_vars
      constructor
      · intro h
        exact ⟨List.mem_cons_of_mem _ h, by have := hs.1 j h; omega⟩
      · rintro ⟨h, hne⟩
        rcases List.mem_cons.1 h with rfl | h
        · exact absurd rfl hne
        · exact h
    · rename_i hki
      rw [List.mem_cons, mem_bsClear hs.2, List.mem_cons]
      constructor
      · rintro (rfl | ⟨h, hne⟩)
        · exact ⟨Or.inl rfl, hki⟩
        · exact ⟨Or.inr h, hne⟩
      · rintro ⟨rfl | h, hne⟩
        · exact Or.inl rfl
        · exact Or.inr ⟨h, hne⟩

theorem bsClear_sublist (i : Nat) : ∀ (s : BitSet), List.Sublist (bsClear i s) s
  | [] => by simp [bsClear]
  | k :: s => by
    simp only [bsClear]
    split
    · exact (List.sublist_cons_self k s)
    · exact List.Sublist.cons₂ k (bsClear_sublist i s)

theorem sorted_bsClear {i : Nat} {s : BitSet} (hs : s.Sorted (· < ·)) :
    (bsClear i s).Sorted (· < ·) :=
  hs.sublist (bsClear_sublist i s)

theorem bsClear_of_not_mem {i : Nat} : ∀ {s : BitSet}, i ∉ s → bsClear i s = s
  | [], _ => rfl
  | k :: s, hm => by
    simp only [List.mem_cons, not_or] at hm
    simp only [bsClear]
    rw [if_neg (fun h => hm.1 h.symm), bsClear_of_not_mem hm.2]

theorem length_bsClear_of_mem {i : Nat} : ∀ {s : BitSet}, i ∈ s →
    (bsClear i s).length + 1 = s.length
  | [], hm => by simp at hm
  | k :: s, hm => by
    simp only [bsClear]
    split
    · simp
    · rename_i hki
      rcases List.mem_cons.1 hm with rfl | hm
      · exact absurd rfl hki
      · simp [length_bsClear_of_mem hm]

/-! ## List access helpers (positions produced by rank computations) -/

theorem getq_set_self {α : Type} : ∀ {l : List α} {k : Nat}, k < l.length → ∀ (v : α),
    (l.set k v).get? k = some v
  | [], k, h => by simp at h
  | a :: l, 0, _ => fun v => rfl
  | a :: l, k + 1, h => fun v => by
    simpa using @getq_set_self α l k (by simpa using h) v

theorem getq_set_ne {α : Type} : ∀ {l : List α} {k k' : Nat}, k ≠ k' → ∀ (v : α),
    (l.set k v).get? k' = l.get? k'
  | [], _, _, _ => fun v => by simp
  | a :: l, 0, 0, h => fun v => absurd rfl h
  | a :: l, 0, k' + 1, _ => fun v => rfl
  | a :: l, k + 1, 0, _ => fun v => rfl
  | a :: l, k + 1, k' + 1, h => fun v => by
    simpa using @getq_set_ne α l k k' (fun hh => h (by omega)) v

theorem getq_insertIdx_self {α : Type} : ∀ {l : List α} {k : Nat}, k ≤ l.length →
    ∀ (v : α), (l.insertIdx k v).get? k = some v
  | l, 0, _ => fun v => rfl
  | [], k + 1, h => by simp at h
  | a :: l, k + 1, h => fun v => by
    simpa [List.insertIdx] using @getq_insertIdx_self α l k (by simpa using h) v

theorem getq_insertIdx_of_lt {α : Type} : ∀ {l : List α} {k k' : Nat}, k' < k →
    ∀ (v : α), (l.insertIdx k v).get? k' = l.get? k'
  | l, 0, k', h => by omega
  | [], k + 1, k', _ => fun v => by simp [List.insertIdx]
  | a :: l, k + 1, 0, _ => fun v => rfl
  | a :: l, k + 1, k' + 1, h => fun v => by
    simpa [List.insertIdx] using @getq_insertIdx_of_lt α l k k' (by omega) v

theorem getq_insertIdx_of_ge {α : Type} : ∀ {l : List α} {k k' : Nat}, k ≤ k' →
    ∀ (v : α), (l.insertIdx k v).get? (k' + 1) = l.get? k'
  | l, 0, k', _ => fun v => rfl
  | [], k + 1, k', _ => fun v => by simp [List.insertIdx]
  | a :: l, k + 1, k' + 1, h => fun v => by
    simpa [List.insertIdx] using @getq_insertIdx_of_ge α l k k' (by omega) v

theorem getq_eraseIdx_of_lt {α : Type} : ∀ {l : List α} {k k' : Nat}, k' < k →
    (l.eraseIdx k).get? k' = l.get? k'
  | [], k, k', _ => by simp
  | a :: l, k + 1, 0, _ => rfl
  | a :: l, k + 1, k' + 1, h => by
    simpa [List.eraseIdx] using @getq_eraseIdx_of_lt α l k k' (by omega)

theorem getq_eraseIdx_of_ge {α : Type} : ∀ {l : List α} {k k' : Nat}, k ≤ k' →
    (l.eraseIdx k).get? k' = l.get? (k' + 1)
  | [], k, k', _ => by simp
  | a :: l, 0, k', _ => rfl
  | a :: l, k + 1, k' + 1, h => by
    simpa [List.eraseIdx] using @getq_eraseIdx_of_ge α l k k' (by omega)

/-! ## Well-formedness of stride nodes -/

/-- Well-formed stride node: bit-sets strictly ascending, prefix base indices
in `[1, 511]` (index 0 is reserved "invalid", spec 4.1), child octets
`<= 255` (a Go `byte`), the popcount correspondence
`len(prefixes) = popcount(prefixesBitset)` (and likewise for children), and
recursively for every child node. -/
inductive Node.Wf : Node V → Prop where
  | mk {pb cb : BitSet} {ps : List V} {cs : List (Node V)} :
      pb.Sorted (· < ·) → (∀ i ∈ pb, 1 ≤ i ∧ i ≤ 511) →
      cb.Sorted (· < ·) → (∀ i ∈ cb, i ≤ 255) →
      ps.length = pb.length → cs.length = cb.length →
      (∀ c ∈ cs, Node.Wf c) →
      Node.Wf (.mk pb cb ps cs)

theorem Node.Wf.pbSorted {n : Node V} (h : n.Wf) : n.prefixesBitset.Sorted (· < ·) := by
  cases h with
  | mk h1 h2 h3 h4 h5 h6 h7 => exact h1

theorem Node.Wf.pbBounds {n : Node V} (h : n.Wf) : ∀ i ∈ n.prefixesBitset, 1 ≤ i ∧ i ≤ 511 := by
  cases h with
  | mk h1 h2 h3 h4 h5 h6 h7 => exact h2

theorem Node.Wf.cbSorted {n : Node V} (h : n.Wf) : n.childrenBitset.Sorted (· < ·) := by
  cases h with
  | mk h1 h2 h3 h4 h5 h6 h7 => exact h3

theorem Node.Wf.cbBounds {n : Node V} (h : n.Wf) : ∀ i ∈ n.childrenBitset, i ≤ 255 := by
  cases h with
  | mk h1 h2 h3 h4 h5 h6 h7 => exact h4

theorem Node.Wf.psLen {n : Node V} (h : n.Wf) : n.prefixes.length = n.prefixesBitset.length := by
  cases h with
  | mk h1 h2 h3 h4 h5 h6 h7 => exact h5

theorem Node.Wf.csLen {n : Node V} (h : n.Wf) : n.children.length = n.childrenBitset.length := by
  cases h with
  | mk h1 h2 h3 h4 h5 h6 h7 => exact h6

theorem Node.Wf.child {n : Node V} (h : n.Wf) : ∀ c ∈ n.children, c.Wf := by
  cases h with
  | mk h1 h2 h3 h4 h5 h6 h7 => exact h7

/-- The fresh node is well formed. -/
theorem newNode_wf : (Node.newNode V).Wf :=
  Node.Wf.mk (by simp) (by simp) (by simp) (by simp) rfl rfl (by simp)

/-- Core of claim C9: under well-formedness a set prefix bit yields a rank
in `[0, len(prefixes))`. -/
theorem prefixRank_bounds {n : Node V} (h : n.Wf) {idx : Nat}
    (ht : bsTest n.prefixesBitset idx = true) :
    0 ≤ n.prefixRank idx ∧ n.prefixRank idx < (n.prefixes.length : Int) := by
  have hm : idx ∈ n.prefixesBitset := bsTest_iff.1 ht
  have h1 : 1 ≤ bsRank n.prefixesBitset idx := bsRank_pos_of_mem hm
  have h2 : bsRank n.prefixesBitset idx ≤ n.prefixesBitset.length := bsRank_le_length
  have h3 := h.psLen
  unfold Node.prefixRank
  omega

/-- Core of claim C9 for children: a set child bit yields a rank in
`[0, len(children))`. -/
theorem childRank_bounds {n : Node V} (h : n.Wf) {octet : Nat}
    (ht : bsTest n.childrenBitset octet = true) :
    0 ≤ n.childRank octet ∧ n.childRank octet < (n.children.length : Int) := by
  have hm : octet ∈ n.childrenBitset := bsTest_iff.1 ht
  have h1 : 1 ≤ bsRank n.childrenBitset octet := bsRank_pos_of_mem hm
  have h2 : bsRank n.childrenBitset octet ≤ n.childrenBitset.length := bsRank_le_length
  have h3 := h.csLen
  unfold Node.childRank
  omega

/-! ## Lemmas about the single-node operations -/

theorem prefixesBitset_mk {pb cb : BitSet} {ps : List V} {cs : List (Node V)} :
    (Node.mk pb cb ps cs).prefixesBitset = pb := rfl

theorem childrenBitset_mk {pb cb : BitSet} {ps : List V} {cs : List (Node V)} :
    (Node.mk pb cb ps cs).childrenBitset = cb := rfl

theorem prefixes_mk {pb cb : BitSet} {ps : List V} {cs : List (Node V)} :
    (Node.mk pb cb ps cs).prefixes = ps := rfl

theorem children_mk {pb cb : BitSet} {ps : List V} {cs : List (Node V)} :
    (Node.mk pb cb ps cs).children = cs := rfl

theorem mem_of_mem_insertIdx {α : Type} {a b : α} : ∀ {l : List α} {k : Nat},
    a ∈ l.insertIdx k b → a = b ∨ a ∈ l
  | l, 0, h => by
    rw [List.insertIdx] at h
    rcases List.mem_cons.1 h with rfl | h
    · exact Or.inl rfl
    · exact Or.inr h
  | [], k + 1, h => by simp [List.insertIdx] at h
  | c :: l, k + 1, h => by
    rw [List.insertIdx] at h
    rcases List.mem_cons.1 h with rfl | h
    · exact Or.inr (List.mem_cons_self a l)
    · rcases mem_of_mem_insertIdx h with rfl | h
      · exact Or.inl rfl
      · exact Or.inr (List.mem_cons_of_mem c h)

/-- `insertIdx` does not touch the child collections. -/
theorem insertIdx_childrenBitset (n : Node V) (i : Nat) (v : V) :
    (n.insertIdx i v).childrenBitset = n.childrenBitset := by
  unfold Node.insertIdx
  split <;> rfl

theorem insertIdx_children (n : Node V) (i : Nat) (v : V) :
    (n.insertIdx i v).children = n.children := by
  unfold Node.insertIdx
  split <;> rfl

/-- `insertChild` does not touch the prefix collections. -/
theorem insertChild_prefixesBitset (n : Node V) (oct : Nat) (c : Node V) :
    (n.insertChild oct c).prefixesBitset = n.prefixesBitset := by
  unfold Node.insertChild
  split <;> rfl

theorem insertChild_prefixes (n : Node V) (oct : Nat) (c : Node V) :
    (n.insertChild oct c).prefixes = n.prefixes := by
  unfold Node.insertChild
  split <;> rfl

/-- Bit after `insertIdx`: the inserted bit, or what was there before. -/
theorem test_insertIdx_iff {n : Node V} {i j : Nat} {v : V} :
    bsTest (n.insertIdx i v).prefixesBitset j = true ↔
      (j = i ∨ bsTest n.prefixesBitset j = true) := by
  unfold Node.insertIdx
  split
  · rename_i ht
    simp only [prefixesBitset_mk, bsTest_iff]
    have hm := bsTest_iff.1 ht
    constructor
    · exact Or.inr
    · rintro (rfl | hh)
      · exact hm
      · exact hh
  · simp only [prefixesBitset_mk, bsTest_iff, mem_bsInsert]

/-- Bit after `insertChild`. -/
theorem test_insertChild_iff {n : Node V} {oct j : Nat} {c : Node V} :
    bsTest (n.insertChild oct c).childrenBitset j = true ↔
      (j = oct ∨ bsTest n.childrenBitset j = true) := by
  unfold Node.insertChild
  split
  · rename_i ht
    simp only [childrenBitset_mk, bsTest_iff]
    have hm := bsTest_iff.1 ht
    constructor
    · exact Or.inr
    · rintro (rfl | hh)
      · exact hm
      · exact hh
  · simp only [childrenBitset_mk, bsTest_iff, mem_bsInsert]

/-- `insertIdx` preserves well-formedness (for a valid base index). -/
theorem insertIdx_wf {n : Node V} (h : n.Wf) {i : Nat} (hi1 : 1 ≤ i) (hi2 : i ≤ 511)
    (v : V) : (n.insertIdx i v).Wf := by
  obtain ⟨pb, cb, ps, cs⟩ := n
  have hps := h.psLen
  rw [prefixes_mk, prefixesBitset_mk] at hps
  unfold Node.insertIdx
  split
  · rename_i ht
    exact Node.Wf.mk h.pbSorted h.pbBounds h.cbSorted h.cbBounds
      (by simp only [prefixes_mk, prefixesBitset_mk]; simpa using hps) h.csLen h.child
  · rename_i ht
    have hnm : i ∉ pb := fun hm => ht (bsTest_iff.2 hm)
    refine Node.Wf.mk (sorted_bsInsert i h.pbSorted) ?_ h.cbSorted h.cbBounds ?_ h.csLen h.child
    · intro x hx
      rcases mem_bsInsert.1 hx with rfl | hx
      · exact ⟨hi1, hi2⟩
      · exact h.pbBounds x hx
    · have hr : bsRank (bsInsert i pb) i = bsRank pb i + 1 := by
        rw [bsRank_bsInsert_of_not_mem hnm, if_pos (le_refl i)]
      have hp : ((bsRank (bsInsert i pb) i : Int) - 1).toNat = bsRank pb i := by omega
      simp only [prefixesBitset_mk, prefixes_mk]
      rw [hp, List.length_insertIdx _ _ (by have := @bsRank_le_length pb i; omega),
        length_bsInsert_of_not_mem hnm, hps]

/-- `insertChild` preserves well-formedness (for a valid octet and a
well-formed child). -/
theorem insertChild_wf {n : Node V} (h : n.Wf) {oct : Nat} (hoct : oct ≤ 255)
    {c : Node V} (hc : c.Wf) : (n.insertChild oct c).Wf := by
  obtain ⟨pb, cb, ps, cs⟩ := n
  have hcs := h.csLen
  rw [children_mk, childrenBitset_mk] at hcs
  unfold Node.insertChild
  split
  · rename_i ht
    refine Node.Wf.mk h.pbSorted h.pbBounds h.cbSorted h.cbBounds h.psLen
      (by simp only [children_mk, childrenBitset_mk]; simpa using hcs) ?_
    intro x hx
    rw [children_mk] at hx
    rcases List.mem_or_eq_of_mem_set hx with hx | rfl
    · exact h.child x hx
    · exact hc
  · rename_i ht
    have hnm : oct ∉ cb := fun hm => ht (bsTest_iff.2 hm)
    refine Node.Wf.mk h.pbSorted h.pbBounds (sorted_bsInsert oct h.cbSorted) ?_ h.psLen ?_ ?_
    · intro x hx
      rcases mem_bsInsert.1 hx with rfl | hx
      · exact hoct
      · exact h.cbBounds x hx
    · have hr : bsRank (bsInsert oct cb) oct = bsRank cb oct + 1 := by
        rw [bsRank_bsInsert_of_not_mem hnm, if_pos (le_refl oct)]
      have hp : ((bsRank (bsInsert oct cb) oct : Int) - 1).toNat = bsRank cb oct := by omega
      simp only [childrenBitset_mk, children_mk]
      rw [hp, List.length_insertIdx _ _ (by have := @bsRank_le_length cb oct; omega),
        length_bsInsert_of_not_mem hnm, hcs]
    · intro x hx
      rw [children_mk] at hx
      rcases mem_of_mem_insertIdx hx with rfl | hx
      · exact hc
      · exact h.child x hx

/-- `deletePrefix` preserves well-formedness. -/
theorem deletePfx_wf {n : Node V} (h : n.Wf) (octet prefixLen : Nat) :
    (n.deletePfx octet prefixLen).1.Wf := by
  obtain ⟨pb, cb, ps, cs⟩ := n
  have hps := h.psLen
  rw [prefixes_mk, prefixesBitset_mk] at hps
  simp only [Node.deletePfx, prefixesBitset_mk, childrenBitset_mk, prefixes_mk, children_mk]
  split
  · rename_i ht
    have hm : prefixToBaseIndex octet prefixLen ∈ pb := bsTest_iff.1 ht
    refine Node.Wf.mk (sorted_bsClear h.pbSorted) ?_ h.cbSorted h.cbBounds ?_ h.csLen h.child
    · intro x hx
      exact h.pbBounds x ((bsClear_sublist _ _).mem hx)
    · have h1 : 1 ≤ bsRank pb (prefixToBaseIndex octet prefixLen) := bsRank_pos_of_mem hm
      have h2 : bsRank pb (prefixToBaseIndex octet prefixLen) ≤ pb.length := bsRank_le_length
      have hlen := length_bsClear_of_mem hm
      simp only [Node.prefixRank, prefixesBitset_mk]
      rw [List.length_eraseIdx]
      split
      · omega
      · omega
  · exact h

/-- `deleteChild` preserves well-formedness. -/
theorem deleteChild_wf {n : Node V} (h : n.Wf) (octet : Nat) :
    (n.deleteChild octet).Wf := by
  obtain ⟨pb, cb, ps, cs⟩ := n
  have hcs := h.csLen
  rw [children_mk, childrenBitset_mk] at hcs
  simp only [Node.deleteChild, prefixesBitset_mk, childrenBitset_mk, prefixes_mk, children_mk]
  split
  · rename_i ht
    have hm : octet ∈ cb := bsTest_iff.1 ht
    refine Node.Wf.mk h.pbSorted h.pbBounds (sorted_bsClear h.cbSorted) ?_ h.psLen ?_ ?_
    · intro x hx
      exact h.cbBounds x ((bsClear_sublist _ _).mem hx)
    · have h1 : 1 ≤ bsRank cb octet := bsRank_pos_of_mem hm
      have h2 : bsRank cb octet ≤ cb.length := bsRank_le_length
      have hlen := length_bsClear_of_mem hm
      simp only [Node.childRank, childrenBitset_mk]
      rw [List.length_eraseIdx]
      split
      · omega
      · omega
    · intro x hx
      exact h.child x ((List.eraseIdx_sublist _ _).mem hx)
  · exact h

/-- `prefixToBaseIndex` lands in the valid range `[1, 511]` for a byte octet
and an in-stride length `<= 8`. -/
theorem prefixToBaseIndex_bounds {octet prefixLen : Nat} (ho : octet ≤ 255)
    (hl : prefixLen ≤ 8) :
    1 ≤ prefixToBaseIndex octet prefixLen ∧ prefixToBaseIndex octet prefixLen ≤ 511 := by
  unfold prefixToBaseIndex strideLen
  rw [Nat.shiftRight_eq_div_pow, Nat.shiftLeft_eq]
  interval_cases prefixLen <;> norm_num <;> omega

theorem bsTest_eq_false_iff {s : BitSet} {i : Nat} : bsTest s i = false ↔ i ∉ s := by
  rw [← Bool.not_eq_true, bsTest_iff]

/-- `updatePrefix` preserves well-formedness. -/
theorem updatePfx_wf [Inhabited V] {n : Node V} (h : n.Wf) {octet prefixLen : Nat}
    (hoct : octet ≤ 255) (hlen : prefixLen ≤ 8) (cb : V → Bool → V) :
    (n.updatePfx octet prefixLen cb).1.Wf := by
  obtain ⟨pb, cbs, ps, cs⟩ := n
  have hps := h.psLen
  rw [prefixes_mk, prefixesBitset_mk] at hps
  simp only [Node.updatePfx, Node.prefixRank, prefixesBitset_mk, childrenBitset_mk,
    prefixes_mk, children_mk]
  split
  · exact Node.Wf.mk h.pbSorted h.pbBounds h.cbSorted h.cbBounds
      (by simpa using hps) h.csLen h.child
  · rename_i ht
    have hnm : prefixToBaseIndex octet prefixLen ∉ pb := fun hm => ht (bsTest_iff.2 hm)
    refine Node.Wf.mk (sorted_bsInsert _ h.pbSorted) ?_ h.cbSorted h.cbBounds ?_ h.csLen h.child
    · intro x hx
      rcases mem_bsInsert.1 hx with rfl | hx
      · exact prefixToBaseIndex_bounds hoct hlen
      · exact h.pbBounds x hx
    · have hr : bsRank (bsInsert (prefixToBaseIndex octet prefixLen) pb)
          (prefixToBaseIndex octet prefixLen) = bsRank pb (prefixToBaseIndex octet prefixLen) + 1 := by
        rw [bsRank_bsInsert_of_not_mem hnm, if_pos (le_refl _)]
      have hble : bsRank pb (prefixToBaseIndex octet prefixLen) ≤ pb.length := bsRank_le_length
      have hp : ((bsRank (bsInsert (prefixToBaseIndex octet prefixLen) pb)
          (prefixToBaseIndex octet prefixLen) : Int) - 1).toNat
          = bsRank pb (prefixToBaseIndex octet prefixLen) := by omega
      rw [hp, List.length_insertIdx _ _ (by omega), length_bsInsert_of_not_mem hnm, hps]

/-- A cleared bit reads as absent. -/
theorem getVal_of_test_false [Inhabited V] {n : Node V} {idx : Nat}
    (ht : bsTest n.prefixesBitset idx = false) :
    n.getValByIndex idx = (default, false) := by
  unfold Node.getValByIndex
  rw [if_neg (by simp [ht])]

/-- `deletePrefix` on an absent prefix returns `false` and the node unchanged
(claims C7 and C3). -/
theorem deletePfx_of_test_false {n : Node V} {octet prefixLen : Nat}
    (ht : bsTest n.prefixesBitset (prefixToBaseIndex octet prefixLen) = false) :
    n.deletePfx octet prefixLen = (n, false) := by
  simp [Node.deletePfx, ht]

/-- After `deletePrefix` the bit of the deleted base index is cleared. -/
theorem test_deletePfx_self {n : Node V} (h : n.Wf) (octet prefixLen : Nat) :
    bsTest (n.deletePfx octet prefixLen).1.prefixesBitset
      (prefixToBaseIndex octet prefixLen) = false := by
  obtain ⟨pb, cbs, ps, cs⟩ := n
  have hsort := h.pbSorted
  rw [prefixesBitset_mk] at hsort
  simp only [Node.deletePfx, prefixesBitset_mk, childrenBitset_mk, prefixes_mk, children_mk]
  split
  · rw [prefixesBitset_mk, bsTest_eq_false_iff]
    intro hm
    exact ((mem_bsClear hsort).1 hm).2 rfl
  · rename_i ht
    rw [prefixesBitset_mk]
    exact Bool.not_eq_true _ ▸ ht

/-- `insertIdx` then `getValByIndex` at the same base index yields the
inserted value (claim C3, insert/get round trip). -/
theorem getVal_insertIdx_self [Inhabited V] {n : Node V} (h : n.Wf) (i : Nat) (v : V) :
    (n.insertIdx i v).getValByIndex i = (v, true) := by
  obtain ⟨pb, cbs, ps, cs⟩ := n
  have hps := h.psLen
  rw [prefixes_mk, prefixesBitset_mk] at hps
  unfold Node.insertIdx
  split
  · rename_i ht
    rw [prefixesBitset_mk] at ht
    have hm : i ∈ pb := bsTest_iff.1 ht
    have h1 : 1 ≤ bsRank pb i := bsRank_pos_of_mem hm
    have h2 : bsRank pb i ≤ pb.length := bsRank_le_length
    simp only [Node.getValByIndex, Node.prefixRank, prefixesBitset_mk, prefixes_mk]
    rw [if_pos ht, List.getD_eq_get?, getq_set_self (by omega) v]
    rfl
  · rename_i ht
    rw [prefixesBitset_mk] at ht
    have hnm : i ∉ pb := fun hm => ht (bsTest_iff.2 hm)
    have hr : bsRank (bsInsert i pb) i = bsRank pb i + 1 := by
      rw [bsRank_bsInsert_of_not_mem hnm, if_pos (le_refl i)]
    have h2 : bsRank pb i ≤ pb.length := bsRank_le_length
    simp only [Node.getValByIndex, Node.prefixRank, prefixesBitset_mk, prefixes_mk]
    rw [if_pos (bsTest_iff.2 (mem_bsInsert.2 (Or.inl rfl)))]
    have hp : ((bsRank (bsInsert i pb) i : Int) - 1).toNat = bsRank pb i := by omega
    rw [hp, List.getD_eq_get?, getq_insertIdx_self (by omega) v]
    rfl

/-- `insertIdx` leaves every other base index untouched. -/
theorem getVal_insertIdx_ne [Inhabited V] {n : Node V} (h : n.Wf) {i j : Nat}
    (hne : j ≠ i) (v : V) :
    (n.insertIdx i v).getValByIndex j = n.getValByIndex j := by
  obtain ⟨pb, cbs, ps, cs⟩ := n
  have hps := h.psLen
  have hsort := h.pbSorted
  rw [prefixes_mk, prefixesBitset_mk] at hps
  rw [prefixesBitset_mk] at hsort
  unfold Node.insertIdx
  split
  · rename_i ht
    rw [prefixesBitset_mk] at ht
    have hmi : i ∈ pb := bsTest_iff.1 ht
    simp only [Node.getValByIndex, Node.prefixRank, prefixesBitset_mk, prefixes_mk]
    by_cases htj : bsTest pb j = true
    · have hmj : j ∈ pb := bsTest_iff.1 htj
      rw [if_pos htj, if_pos htj]
      have hri : 1 ≤ bsRank pb i := bsRank_pos_of_mem hmi
      have hrj : 1 ≤ bsRank pb j := bsRank_pos_of_mem hmj
      have hrne : bsRank pb i ≠ bsRank pb j := fun hh => hne (bsRank_inj hmi hmj hh).symm
      rw [List.getD_eq_get?, List.getD_eq_get?, getq_set_ne (by omega) v]
    · rw [if_neg htj, if_neg htj]
  · rename_i ht
    rw [prefixesBitset_mk] at ht
    have hnm : i ∉ pb := fun hm => ht (bsTest_iff.2 hm)
    have hp : ((bsRank (bsInsert i pb) i : Int) - 1).toNat = bsRank pb i := by
      have hr : bsRank (bsInsert i pb) i = bsRank pb i + 1 := by
        rw [bsRank_bsInsert_of_not_mem hnm, if_pos (le_refl i)]
      omega
    simp only [Node.getValByIndex, Node.prefixRank, prefixesBitset_mk, prefixes_mk]
    by_cases htj : bsTest pb j = true
    · have hmj : j ∈ pb := bsTest_iff.1 htj
      have htj' : bsTest (bsInsert i pb) j = true :=
        bsTest_iff.2 (mem_bsInsert.2 (Or.inr hmj))
      rw [if_pos htj, if_pos htj']
      have hrj : 1 ≤ bsRank pb j := bsRank_pos_of_mem hmj
      rcases Nat.lt_or_ge j i with hji | hij
      · have hr : bsRank (bsInsert i pb) j = bsRank pb j := by
          rw [bsRank_bsInsert_of_not_mem hnm, if_neg (by omega)]
          omega
        have hmono : bsRank pb j ≤ bsRank pb i := bsRank_mono (by omega)
        rw [hr, List.getD_eq_get?, List.getD_eq_get?, hp]
        rw [getq_insertIdx_of_lt (by omega) v]
      · have hij' : i < j := by omega
        have hr : bsRank (bsInsert i pb) j = bsRank pb j + 1 := by
          rw [bsRank_bsInsert_of_not_mem hnm, if_pos (by omega)]
        have hlt : bsRank pb i < bsRank pb j := bsRank_lt_of_lt_mem hij' hmj
        have e1 : ((bsRank (bsInsert i pb) j : Int) - 1).toNat
            = (bsRank pb j - 1) + 1 := by omega
        have e2 : ((bsRank pb j : Int) - 1).toNat = bsRank pb j - 1 := by omega
        rw [e1, e2, hp, List.getD_eq_get?, List.getD_eq_get?]
        rw [getq_insertIdx_of_ge (by omega) v]
    · have htj' : bsTest (bsInsert i pb) j = false := by
        rw [bsTest_eq_false_iff, mem_bsInsert]
        push_neg
        exact ⟨hne, bsTest_eq_false_iff.1 (Bool.not_eq_true _ ▸ htj)⟩
      rw [if_neg htj, if_neg (by simp [htj'])]

/-- An unset child bit reads as no child. -/
theorem getChild_of_test_false {n : Node V} {oct : Nat}
    (ht : bsTest n.childrenBitset oct = false) : n.getChild oct = none := by
  unfold Node.getChild
  rw [if_neg (by simp [ht])]

/-- A set child bit yields a child under well-formedness. -/
theorem getChild_some_of_test {n : Node V} (h : n.Wf) {oct : Nat}
    (ht : bsTest n.childrenBitset oct = true) : ∃ c, n.getChild oct = some c := by
  have hb := childRank_bounds h ht
  unfold Node.getChild
  rw [if_pos ht]
  have hlt : (n.childRank oct).toNat < n.children.length := by omega
  rcases List.get?_eq_get hlt with hg
  exact ⟨_, hg⟩

/-- Children retrieved from a well-formed node are well formed. -/
theorem getChild_wf {n : Node V} (h : n.Wf) {oct : Nat} {c : Node V}
    (hc : n.getChild oct = some c) : c.Wf :=
  h.child c (Node.getChild_mem hc)

/-- `deleteChild` on an absent octet is the identity (claim C10). -/
theorem deleteChild_of_test_false {n : Node V} {oct : Nat}
    (ht : bsTest n.childrenBitset oct = false) : n.deleteChild oct = n := by
  unfold Node.deleteChild
  rw [if_neg (by simp [ht])]

/-- `insertChild` then `getChild` at the same octet yields the new child. -/
theorem getChild_insertChild_self {n : Node V} (h : n.Wf) (oct : Nat) (c : Node V) :
    (n.insertChild oct c).getChild oct = some c := by
  obtain ⟨pb, cb, ps, cs⟩ := n
  have hcs := h.csLen
  rw [children_mk, childrenBitset_mk] at hcs
  unfold Node.insertChild
  split
  · rename_i ht
    rw [childrenBitset_mk] at ht
    have hm : oct ∈ cb := bsTest_iff.1 ht
    have h1 : 1 ≤ bsRank cb oct := bsRank_pos_of_mem hm
    have h2 : bsRank cb oct ≤ cb.length := bsRank_le_length
    simp only [Node.getChild, Node.childRank, childrenBitset_mk, children_mk]
    rw [if_pos ht, getq_set_self (by omega) c]
  · rename_i ht
    rw [childrenBitset_mk] at ht
    have hnm : oct ∉ cb := fun hm => ht (bsTest_iff.2 hm)
    have hr : bsRank (bsInsert oct cb) oct = bsRank cb oct + 1 := by
      rw [bsRank_bsInsert_of_not_mem hnm, if_pos (le_refl oct)]
    have h2 : bsRank cb oct ≤ cb.length := bsRank_le_length
    simp only [Node.getChild, Node.childRank, childrenBitset_mk, children_mk]
    rw [if_pos (bsTest_iff.2 (mem_bsInsert.2 (Or.inl rfl)))]
    have hp : ((bsRank (bsInsert oct cb) oct : Int) - 1).toNat = bsRank cb oct := by omega
    rw [hp, getq_insertIdx_self (by omega) c]

/-- `insertChild` leaves every other octet untouched. -/
theorem getChild_insertChild_ne {n : Node V} (h : n.Wf) {oct j : Nat}
    (hne : j ≠ oct) (c : Node V) :
    (n.insertChild oct c).getChild j = n.getChild j := by
  obtain ⟨pb, cb, ps, cs⟩ := n
  have hcs := h.csLen
  have hsort := h.cbSorted
  rw [children_mk, childrenBitset_mk] at hcs
  rw [childrenBitset_mk] at hsort
  unfold Node.insertChild
  split
  · rename_i ht
    rw [childrenBitset_mk] at ht
    have hmi : oct ∈ cb := bsTest_iff.1 ht
    simp only [Node.getChild, Node.childRank, childrenBitset_mk, children_mk]
    by_cases htj : bsTest cb j = true
    · have hmj : j ∈ cb := bsTest_iff.1 htj
      rw [if_pos htj, if_pos htj]
      have hri : 1 ≤ bsRank cb oct := bsRank_pos_of_mem hmi
      have hrj : 1 ≤ bsRank cb j := bsRank_pos_of_mem hmj
      have hrne : bsRank cb oct ≠ bsRank cb j := fun hh => hne (bsRank_inj hmi hmj hh).symm
      rw [getq_set_ne (by omega) c]
    · rw [if_neg htj, if_neg htj]
  · rename_i ht
    rw [childrenBitset_mk] at ht
    have hnm : oct ∉ cb := fun hm => ht (bsTest_iff.2 hm)
    have hp : ((bsRank (bsInsert oct cb) oct : Int) - 1).toNat = bsRank cb oct := by
      have hr : bsRank (bsInsert oct cb) oct = bsRank cb oct + 1 := by
        rw [bsRank_bsInsert_of_not_mem hnm, if_pos (le_refl oct)]
      omega
    simp only [Node.getChild, Node.childRank, childrenBitset_mk, children_mk]
    by_cases htj : bsTest cb j = true
    · have hmj : j ∈ cb := bsTest_iff.1 htj
      have htj' : bsTest (bsInsert oct cb) j = true :=
        bsTest_iff.2 (mem_bsInsert.2 (Or.inr hmj))
      rw [if_pos htj, if_pos htj']
      have hrj : 1 ≤ bsRank cb j := bsRank_pos_of_mem hmj
      rcases Nat.lt_or_ge j oct with hji | hij
      · have hr : bsRank (bsInsert oct cb) j = bsRank cb j := by
          rw [bsRank_bsInsert_of_not_mem hnm, if_neg (by omega)]
          omega
        have hmono : bsRank cb j ≤ bsRank cb oct := bsRank_mono (by omega)
        rw [hr, hp, getq_insertIdx_of_lt (by omega) c]
      · have hij' : oct < j := by omega
        have hr : bsRank (bsInsert oct cb) j = bsRank cb j + 1 := by
          rw [bsRank_bsInsert_of_not_mem hnm, if_pos (by omega)]
        have hlt : bsRank cb oct < bsRank cb j := bsRank_lt_of_lt_mem hij' hmj
        have e1 : ((bsRank (bsInsert oct cb) j : Int) - 1).toNat
            = (bsRank cb j - 1) + 1 := by omega
        have e2 : ((bsRank cb j : Int) - 1).toNat = bsRank cb j - 1 := by omega
        rw [e1, e2, hp, getq_insertIdx_of_ge (by omega) c]
    · have htj' : bsTest (bsInsert oct cb) j = false := by
        rw [bsTest_eq_false_iff, mem_bsInsert]
        push_neg
        exact ⟨hne, bsTest_eq_false_iff.1 (Bool.not_eq_true _ ▸ htj)⟩
      rw [if_neg htj, if_neg (by simp [htj'])]

/-! ## The in-stride longest-prefix match (claim C1) -/

theorem chain_eq_of_pos {i : Nat} (h : 1 ≤ i) : chain i = i :: chain (i / 2) := by
  obtain ⟨j, rfl⟩ : ∃ j, i = j + 1 := ⟨i - 1, by omega⟩
  rw [chain]

theorem chain_zero : chain 0 = [] := by rw [chain]

/-- `lpmByIndex` returns exactly the first set index on the backtracking
chain `idx, idx >> 1, ..., 1` (and the value stored there), provided bit 0
is never set, which well-formedness guarantees. -/
theorem lpmByIndex_eq_find [Inhabited V] {n : Node V}
    (h0 : bsTest n.prefixesBitset 0 = false) {idx : Nat} (hidx : 1 ≤ idx) :
    n.lpmByIndex idx =
      match (chain idx).find? (fun t => bsTest n.prefixesBitset t) with
      | some t => (t, (n.getValByIndex t).1, true)
      | none => (0, default, false) := by
  rw [Node.lpmByIndex, chain_eq_of_pos hidx]
  by_cases ht : bsTest n.prefixesBitset idx = true
  · rw [if_pos ht, List.find?_cons_of_pos _ ht]
    simp [Node.getValByIndex, ht]
  · rw [if_neg ht, List.find?_cons_of_neg _ ht, if_neg (by omega)]
    by_cases h1 : idx = 1
    · subst h1
      rw [show (1 : Nat) / 2 = 0 from rfl, chain_zero]
      rw [Node.lpmByIndex, if_neg (by simp [h0]), if_pos rfl]
      simp
    · exact lpmByIndex_eq_find h0 (by omega)
termination_by idx
decreasing_by omega

/-- Bool version: the lpm hits iff some chain element is set. -/
theorem lpmByIndex_ok_iff [Inhabited V] {n : Node V}
    (h0 : bsTest n.prefixesBitset 0 = false) {idx : Nat} (hidx : 1 ≤ idx) :
    (n.lpmByIndex idx).2.2 = true ↔
      ∃ t ∈ chain idx, bsTest n.prefixesBitset t = true := by
  rw [lpmByIndex_eq_find h0 hidx]
  rcases hf : (chain idx).find? (fun t => bsTest n.prefixesBitset t) with _ | t
  · simp only []
    constructor
    · intro hh
      simp at hh
    · rintro ⟨t, htm, htt⟩
      have := List.find?_eq_none.1 hf t htm
      simp [htt] at this
  · simp only []
    constructor
    · intro _
      exact ⟨t, List.mem_of_find?_eq_some hf, List.find?_some hf⟩
    · intro _
      trivial

/-! ## Concrete sample nodes for the witnesses -/

/-- Concrete child node: one route at base index 300 with value 9. -/
def sampleChild : Node Nat := Node.mk [300] [] [9] []

/-- Concrete node: routes at base indices 1 (value 42) and 72 (value 7),
one child at octet 5. -/
def sampleNode : Node Nat := Node.mk [1, 72] [5] [42, 7] [sampleChild]

theorem sampleChild_wf : sampleChild.Wf :=
  Node.Wf.mk (by decide) (by decide) (by decide) (by decide) rfl rfl (by simp)

theorem sampleNode_wf : sampleNode.Wf :=
  Node.Wf.mk (by decide) (by decide) (by decide) (by decide) rfl rfl (by
    intro c hc
    have : c = sampleChild := by simpa using hc
    rw [this]
    exact sampleChild_wf)

/-! ## Clone and union preserve the invariant (claim C2) -/

/-- On well-formed nodes the functional `cloneRec` is the identity: Go's
clone copies bit-sets and slices and deep-clones each child, which under
value semantics reproduces the same node. -/
theorem cloneRec_eq_self : ∀ {n : Node V}, n.Wf → n.cloneRec = n
  | .mk pb cb ps cs, h => by
    rw [Node.cloneRec]
    split
    · rename_i he
      simp only [Node.isEmpty, prefixes_mk, children_mk, Bool.and_eq_true,
        List.isEmpty_iff] at he
      have hpb : pb = [] := by
        have := h.psLen
        rw [prefixes_mk, prefixesBitset_mk, he.1] at this
        exact List.length_eq_zero.1 this.symm
      have hcb : cb = [] := by
        have := h.csLen
        rw [children_mk, childrenBitset_mk, he.2] at this
        exact List.length_eq_zero.1 this.symm
      rw [hpb, hcb, he.1, he.2]
    · simp only [prefixesBitset_mk, childrenBitset_mk, prefixes_mk, children_mk]
      have hrec : ∀ c ∈ cs, Node.cloneRec c = c := fun c hc =>
        cloneRec_eq_self (h.child c hc)
      congr 1
      calc cs.attach.map (fun c => Node.cloneRec c.1)
          = cs.map Node.cloneRec := List.attach_map_val cs Node.cloneRec
        _ = cs.map id := List.map_congr_left hrec
        _ = cs := List.map_id cs
termination_by n => sizeOf n
decreasing_by
  simp_wf
  have hlt := List.sizeOf_lt_of_mem hc
  omega

theorem cloneRec_wf {n : Node V} (h : n.Wf) : n.cloneRec.Wf := by
  rw [cloneRec_eq_self h]
  exact h

/-- The prefix loop of `unionRec` preserves well-formedness. -/
theorem foldl_insertIdx_wf [Inhabited V] {f : Nat → V} :
    ∀ {l : List Nat} {acc : Node V}, acc.Wf → (∀ x ∈ l, 1 ≤ x ∧ x ≤ 511) →
    (l.foldl (fun a i => a.insertIdx i (f i)) acc).Wf
  | [], _, h, _ => h
  | x :: l, acc, h, hb => by
    rw [List.foldl_cons]
    exact foldl_insertIdx_wf
      (insertIdx_wf h (hb x (List.mem_cons_self _ _)).1 (hb x (List.mem_cons_self _ _)).2 _)
      (fun y hy => hb y (List.mem_cons_of_mem _ hy))

mutual

/-- `unionRec` preserves well-formedness. -/
theorem unionRec_wf [Inhabited V] {n o : Node V} (hn : n.Wf) (ho : o.Wf) :
    (n.unionRec o).Wf := by
  rw [Node.unionRec]
  exact unionGo_wf (foldl_insertIdx_wf hn (fun x hx => ho.pbBounds x hx)) ho
    (fun x hx => hx)
termination_by (sizeOf o, o.childrenBitset.length + 1)

/-- The child loop of `unionRec` preserves well-formedness. -/
theorem unionGo_wf [Inhabited V] {acc o : Node V} (hacc : acc.Wf) (ho : o.Wf)
    {l : List Nat} (hl : ∀ x ∈ l, x ∈ o.childrenBitset) :
    (Node.unionGo acc o l).Wf := by
  match l with
  | [] =>
    rw [Node.unionGo]
    exact hacc
  | oOctet :: rest =>
    rw [Node.unionGo]
    refine unionGo_wf ?_ ho (fun x hx => hl x (List.mem_cons_of_mem _ hx))
    split
    · exact hacc
    · rename_i oNode hoc
      have howf : oNode.Wf := getChild_wf ho hoc
      have hoct : oOctet ≤ 255 := ho.cbBounds _ (hl _ (List.mem_cons_self _ _))
      have hsz : sizeOf oNode < sizeOf o :=
        Node.sizeOf_lt_of_mem_children (Node.getChild_mem hoc)
      split
      · exact insertChild_wf hacc hoct (cloneRec_wf howf)
      · rename_i nNode hnc
        exact insertChild_wf hacc hoct (unionRec_wf (getChild_wf hacc hnc) howf)
termination_by (sizeOf o, l.length)

end

/-! ## Reachable node states (claim C2) -/

/-- All node states reachable from a fresh node by the node operations, with
their Go argument types respected (octets are bytes, in-stride lengths lie
in `[0, 8]`, raw base indices in `[1, 511]`); children of reachable nodes
are themselves reachable. -/
inductive Reachable {V : Type} [Inhabited V] : Node V → Prop where
  | new : Reachable (Node.newNode V)
  | insertIdx {n : Node V} {i : Nat} (hn : Reachable n) (h1 : 1 ≤ i) (h2 : i ≤ 511)
      (v : V) : Reachable (n.insertIdx i v)
  | insertPfx {n : Node V} (hn : Reachable n) {octet prefixLen : Nat}
      (ho : octet ≤ 255) (hl : prefixLen ≤ 8) (v : V) :
      Reachable (n.insertPfx octet prefixLen v)
  | deletePfx {n : Node V} (hn : Reachable n) (octet prefixLen : Nat) :
      Reachable (n.deletePfx octet prefixLen).1
  | updatePfx {n : Node V} (hn : Reachable n) {octet prefixLen : Nat}
      (ho : octet ≤ 255) (hl : prefixLen ≤ 8) (cb : V → Bool → V) :
      Reachable (n.updatePfx octet prefixLen cb).1
  | insertChild {n c : Node V} (hn : Reachable n) (hc : Reachable c) {octet : Nat}
      (ho : octet ≤ 255) : Reachable (n.insertChild octet c)
  | deleteChild {n : Node V} (hn : Reachable n) (octet : Nat) :
      Reachable (n.deleteChild octet)
  | unionRec {n o : Node V} (hn : Reachable n) (ho : Reachable o) :
      Reachable (n.unionRec o)
  | cloneRec {n : Node V} (hn : Reachable n) : Reachable n.cloneRec
  | child {n c : Node V} (hn : Reachable n) {octet : Nat}
      (hc : n.getChild octet = some c) : Reachable c

/-- Every reachable node is well formed. -/
theorem reachable_wf {V : Type} [Inhabited V] {n : Node V} (hr : Reachable n) :
    n.Wf := by
  induction hr with
  | new => exact newNode_wf
  | insertIdx hn h1 h2 v ih => exact insertIdx_wf ih h1 h2 v
  | insertPfx hn ho hl v ih =>
    exact insertIdx_wf ih (prefixToBaseIndex_bounds ho hl).1
      (prefixToBaseIndex_bounds ho hl).2 v
  | deletePfx hn octet prefixLen ih => exact deletePfx_wf ih octet prefixLen
  | updatePfx hn ho hl cb ih => exact updatePfx_wf ih ho hl cb
  | insertChild hn hc ho ihn ihc => exact insertChild_wf ihn ho ihc
  | deleteChild hn octet ih => exact deleteChild_wf ih octet
  | unionRec hn ho ihn iho => exact unionRec_wf ihn iho
  | cloneRec hn ih => exact cloneRec_wf ih
  | child hn hc ih => exact getChild_wf ih hc

/-- Slot correspondence from well-formedness: the `k`-th set bit of a
companion bit-set is served by slot `k` of the compressed slice. -/
theorem wf_slot_correspondence {V : Type} [Inhabited V] {n : Node V} (h : n.Wf) :
    (∀ k i, n.prefixesBitset.get? k = some i →
      n.getValByIndex i = (n.prefixes.getD k default, true)) ∧
    (∀ k oct, n.childrenBitset.get? k = some oct →
      n.getChild oct = n.children.get? k) := by
  constructor
  · intro k i hk
    rcases List.get?_eq_some.1 hk with ⟨hlen, hget⟩
    have hm : i ∈ n.prefixesBitset := hget ▸ List.get_mem _ _ _
    have hrk : bsRank n.prefixesBitset i = k + 1 := by
      rw [← hget]
      exact bsRank_get h.pbSorted hlen
    unfold Node.getValByIndex
    rw [if_pos (bsTest_iff.2 hm)]
    unfold Node.prefixRank
    rw [hrk]
    norm_num
  · intro k oct hk
    rcases List.get?_eq_some.1 hk with ⟨hlen, hget⟩
    have hm : oct ∈ n.childrenBitset := hget ▸ List.get_mem _ _ _
    have hrk : bsRank n.childrenBitset oct = k + 1 := by
      rw [← hget]
      exact bsRank_get h.cbSorted hlen
    unfold Node.getChild
    rw [if_pos (bsTest_iff.2 hm)]
    unfold Node.childRank
    rw [hrk]
    norm_num

/-! ## Union semantics (claim C6) -/

theorem sorted_nodup {s : List Nat} (hs : s.Sorted (· < ·)) : s.Nodup :=
  hs.imp (fun h => Nat.ne_of_lt h)

/-- The ok flag of `getValByIndex` is exactly the bit test. -/
theorem getVal_snd_eq_test [Inhabited V] (n : Node V) (j : Nat) :
    (n.getValByIndex j).2 = bsTest n.prefixesBitset j := by
  unfold Node.getValByIndex
  split
  · rename_i ht
    simp [ht]
  · rename_i ht
    simp [Bool.not_eq_true _ ▸ ht]

theorem getVal_eq_of_fields [Inhabited V] {a b : Node V}
    (h1 : a.prefixesBitset = b.prefixesBitset) (h2 : a.prefixes = b.prefixes)
    (j : Nat) : a.getValByIndex j = b.getValByIndex j := by
  unfold Node.getValByIndex Node.prefixRank
  rw [h1, h2]

theorem getChild_eq_of_fields {a b : Node V}
    (h1 : a.childrenBitset = b.childrenBitset) (h2 : a.children = b.children)
    (j : Nat) : a.getChild j = b.getChild j := by
  unfold Node.getChild Node.childRank
  rw [h1, h2]

/-- The prefix loop of `unionRec` does not touch the child collections. -/
theorem foldl_insertIdx_child_fields [Inhabited V] (f : Nat → V) :
    ∀ (l : List Nat) (acc : Node V),
    (l.foldl (fun a i => a.insertIdx i (f i)) acc).childrenBitset = acc.childrenBitset ∧
    (l.foldl (fun a i => a.insertIdx i (f i)) acc).children = acc.children
  | [], acc => ⟨rfl, rfl⟩
  | x :: l, acc => by
    rw [List.foldl_cons]
    refine ⟨?_, ?_⟩
    · rw [(foldl_insertIdx_child_fields f l (acc.insertIdx x (f x))).1, insertIdx_childrenBitset]
    · rw [(foldl_insertIdx_child_fields f l (acc.insertIdx x (f x))).2, insertIdx_children]

/-- Reading back after the prefix loop of `unionRec`: indices of the list
get the inserted value, all others are untouched. -/
theorem foldl_insertIdx_getVal [Inhabited V] (f : Nat → V) :
    ∀ (l : List Nat) {acc : Node V}, acc.Wf → (∀ x ∈ l, 1 ≤ x ∧ x ≤ 511) → ∀ (j : Nat),
    (j ∈ l → (l.foldl (fun a i => a.insertIdx i (f i)) acc).getValByIndex j = (f j, true)) ∧
    (j ∉ l → (l.foldl (fun a i => a.insertIdx i (f i)) acc).getValByIndex j
        = acc.getValByIndex j)
  | [], acc, _, _, j => ⟨fun hj => by simp at hj, fun _ => rfl⟩
  | x :: l, acc, h, hb, j => by
    rw [List.foldl_cons]
    have hx := hb x (List.mem_cons_self _ _)
    have hwf : (acc.insertIdx x (f x)).Wf := insertIdx_wf h hx.1 hx.2 _
    have hbl : ∀ y ∈ l, 1 ≤ y ∧ y ≤ 511 := fun y hy => hb y (List.mem_cons_of_mem _ hy)
    constructor
    · intro hj
      by_cases hjl : j ∈ l
      · exact (foldl_insertIdx_getVal f l hwf hbl j).1 hjl
      · have hjx : j = x := by
          rcases List.mem_cons.1 hj with h' | h'
          · exact h'
          · exact absurd h' hjl
        subst hjx
        rw [(foldl_insertIdx_getVal f l hwf hbl j).2 hjl]
        exact getVal_insertIdx_self h j (f j)
    · intro hj
      simp only [List.mem_cons, not_or] at hj
      rw [(foldl_insertIdx_getVal f l hwf hbl j).2 hj.2]
      exact getVal_insertIdx_ne h hj.1 (f x)

/-- The child loop of `unionRec` does not touch the prefix collections. -/
theorem unionGo_prefix_fields [Inhabited V] {o : Node V} :
    ∀ (l : List Nat) {acc : Node V},
    (Node.unionGo acc o l).prefixesBitset = acc.prefixesBitset ∧
    (Node.unionGo acc o l).prefixes = acc.prefixes
  | [], acc => by
    rw [Node.unionGo]
    exact ⟨rfl, rfl⟩
  | oOctet :: rest, acc => by
    rw [Node.unionGo]
    refine ⟨?_, ?_⟩
    · rw [(unionGo_prefix_fields rest).1]
      split
      · rfl
      · split
        · rw [insertChild_prefixesBitset]
        · rw [insertChild_prefixesBitset]
    · rw [(unionGo_prefix_fields rest).2]
      split
      · rfl
      · split
        · rw [insertChild_prefixes]
        · rw [insertChild_prefixes]

/-- Reading back a child after the child loop of `unionRec`. -/
theorem unionGo_getChild [Inhabited V] {o : Node V} (ho : o.Wf) :
    ∀ (l : List Nat) {acc : Node V}, acc.Wf → (∀ x ∈ l, x ∈ o.childrenBitset) →
    l.Nodup → ∀ (j : Nat),
    (∀ oc, j ∈ l → o.getChild j = some oc →
      (Node.unionGo acc o l).getChild j =
        (match acc.getChild j with
         | none => some oc.cloneRec
         | some nc => some (nc.unionRec oc))) ∧
    (j ∉ l → (Node.unionGo acc o l).getChild j = acc.getChild j)
  | [], acc, _, _, _, j => by
    rw [Node.unionGo]
    exact ⟨fun oc hj _ => by simp at hj, fun _ => rfl⟩
  | x :: l, acc, hacc, hl, hnd, j => by
    rw [Node.unionGo]
    have hxcb : x ∈ o.childrenBitset := hl x (List.mem_cons_self _ _)
    have hxle : x ≤ 255 := ho.cbBounds x hxcb
    have hll : ∀ y ∈ l, y ∈ o.childrenBitset := fun y hy => hl y (List.mem_cons_of_mem _ hy)
    have hndl : l.Nodup := (List.nodup_cons.1 hnd).2
    have hxnl : x ∉ l := (List.nodup_cons.1 hnd).1
    -- well-formedness of the accumulator after processing x
    have hacc' : (match h : o.getChild x with
        | none => acc
        | some oNode =>
          have _hsz : sizeOf oNode < sizeOf o :=
            Node.sizeOf_lt_of_mem_children (Node.getChild_mem h)
          match acc.getChild x with
          | none => acc.insertChild x oNode.cloneRec
          | some nNode => acc.insertChild x (nNode.unionRec oNode)).Wf := by
      split
      · exact hacc
      · rename_i oNode hoc
        have howf : oNode.Wf := getChild_wf ho hoc
        split
        · exact insertChild_wf hacc hxle (cloneRec_wf howf)
        · rename_i nNode hnc
          exact insertChild_wf hacc hxle (unionRec_wf (getChild_wf hacc hnc) howf)
    constructor
    · intro oc hj hoc
      rcases List.mem_cons.1 hj with rfl | hjl
      · -- j = x: processed in this step, untouched afterwards
        rw [(unionGo_getChild ho l hacc' hll hndl j).2 hxnl]
        split
        · rename_i hnone
          rw [hoc] at hnone
          cases hnone
        · rename_i oNode hoc'
          rw [hoc] at hoc'
          cases hoc'
          split
          · exact getChild_insertChild_self hacc _ _
          · exact getChild_insertChild_self hacc _ _
      · -- j in the tail: this step does not touch j
        have hjx : j ≠ x := fun hh => hxnl (hh ▸ hjl)
        have hstep : (match h : o.getChild x with
            | none => acc
            | some oNode =>
              have _hsz : sizeOf oNode < sizeOf o :=
                Node.sizeOf_lt_of_mem_children (Node.getChild_mem h)
              match acc.getChild x with
              | none => acc.insertChild x oNode.cloneRec
              | some nNode => acc.insertChild x (nNode.unionRec oNode)).getChild j
            = acc.getChild j := by
          split
          · rfl
          · split
            · exact getChild_insertChild_ne hacc hjx _
            · exact getChild_insertChild_ne hacc hjx _
        rw [(unionGo_getChild ho l hacc' hll hndl j).1 oc hjl hoc, hstep]
    · intro hj
      simp only [List.mem_cons, not_or] at hj
      rw [(unionGo_getChild ho l hacc' hll hndl j).2 hj.2]
      split
      · rfl
      · split
        · exact getChild_insertChild_ne hacc hj.1 _
        · exact getChild_insertChild_ne hacc hj.1 _

theorem test_of_getChild_some {n : Node V} {j : Nat} {c : Node V}
    (h : n.getChild j = some c) : bsTest n.childrenBitset j = true := by
  unfold Node.getChild at h
  by_cases ht : bsTest n.childrenBitset j = true
  · exact ht
  · rw [if_neg ht] at h
    cases h

/-- Prefix view of `unionRec`: the other node's routes win, all other base
indices keep the receiver's value. -/
theorem unionRec_getVal [Inhabited V] {n o : Node V} (hn : n.Wf) (ho : o.Wf) (j : Nat) :
    (bsTest o.prefixesBitset j = true →
      (n.unionRec o).getValByIndex j = o.getValByIndex j) ∧
    (bsTest o.prefixesBitset j = false →
      (n.unionRec o).getValByIndex j = n.getValByIndex j) := by
  have hfold := foldl_insertIdx_getVal (fun i => (o.getValByIndex i).1)
      o.prefixesBitset hn ho.pbBounds j
  rw [Node.unionRec]
  have hpf : (Node.unionGo
        (List.foldl (fun a i => Node.insertIdx a i ((o.getValByIndex i).1)) n o.prefixesBitset)
        o o.childrenBitset).prefixesBitset
      = (List.foldl (fun a i => Node.insertIdx a i ((o.getValByIndex i).1)) n
          o.prefixesBitset).prefixesBitset ∧
    (Node.unionGo
        (List.foldl (fun a i => Node.insertIdx a i ((o.getValByIndex i).1)) n o.prefixesBitset)
        o o.childrenBitset).prefixes
      = (List.foldl (fun a i => Node.insertIdx a i ((o.getValByIndex i).1)) n
          o.prefixesBitset).prefixes :=
    unionGo_prefix_fields o.childrenBitset
  constructor
  · intro ht
    rw [getVal_eq_of_fields hpf.1 hpf.2 j, hfold.1 (bsTest_iff.1 ht)]
    have h2 := getVal_snd_eq_test o j
    rw [ht] at h2
    rw [Prod.ext_iff]
    exact ⟨rfl, h2.symm⟩
  · intro ht
    rw [getVal_eq_of_fields hpf.1 hpf.2 j,
      hfold.2 (fun hm => by rw [bsTest_iff.2 hm] at ht; cases ht)]

/-- Child view of `unionRec`: octets only in the other node get a deep clone
attached, common octets get the recursive union, the rest keep the
receiver's child. -/
theorem unionRec_getChild [Inhabited V] {n o : Node V} (hn : n.Wf) (ho : o.Wf) (j : Nat) :
    (∀ oc, o.getChild j = some oc →
      (n.unionRec o).getChild j =
        (match n.getChild j with
         | none => some oc.cloneRec
         | some nc => some (nc.unionRec oc))) ∧
    (o.getChild j = none → (n.unionRec o).getChild j = n.getChild j) := by
  have hcf := foldl_insertIdx_child_fields (fun i => (o.getValByIndex i).1)
      o.prefixesBitset n
  have hwf1 : ((o.prefixesBitset).foldl
      (fun a i => a.insertIdx i ((o.getValByIndex i).1)) n).Wf :=
    foldl_insertIdx_wf hn ho.pbBounds
  have hnd := sorted_nodup ho.cbSorted
  rw [Node.unionRec]
  have hgo := unionGo_getChild ho o.childrenBitset hwf1 (fun x hx => hx) hnd j
  constructor
  · intro oc hoc
    have hjmem : j ∈ o.childrenBitset := bsTest_iff.1 (test_of_getChild_some hoc)
    rw [hgo.1 oc hjmem hoc, getChild_eq_of_fields hcf.1 hcf.2 j]
  · intro hoc
    have hjn : j ∉ o.childrenBitset := by
      intro hm
      rcases getChild_some_of_test ho (bsTest_iff.2 hm) with ⟨c, hc⟩
      rw [hc] at hoc
      cases hoc
    rw [hgo.2 hjn, getChild_eq_of_fields hcf.1 hcf.2 j]

/-- Nodes reached along a path from a well-formed node are well formed. -/
theorem getNodeAt_wf : ∀ {path : List Nat} {n m : Node V}, n.Wf →
    n.getNodeAt path = some m → m.Wf
  | [], n, m, h, hp => by
    rw [Node.getNodeAt] at hp
    cases hp
    exact h
  | oct :: rest, n, m, h, hp => by
    rw [Node.getNodeAt] at hp
    split at hp
    · cases hp
    · rename_i c hc
      exact getNodeAt_wf (getChild_wf h hc) hp

/-- C6 part 1: every route present anywhere in `o` appears at the same path
of the union with `o`'s value. -/
theorem union_keeps_o : ∀ {path : List Nat} {V : Type} [Inhabited V] {n o : Node V},
    n.Wf → o.Wf → ∀ {om : Node V}, o.getNodeAt path = some om → ∀ {idx : Nat},
    bsTest om.prefixesBitset idx = true →
    ∃ rn, (n.unionRec o).getNodeAt path = some rn ∧
      bsTest rn.prefixesBitset idx = true ∧
      rn.getValByIndex idx = om.getValByIndex idx
  | [], V, _, n, o, hn, ho, om, hon, idx, ht => by
    rw [Node.getNodeAt] at hon
    cases hon
    refine ⟨n.unionRec o, rfl, ?_, (unionRec_getVal hn ho idx).1 ht⟩
    have h1 := getVal_snd_eq_test (n.unionRec o) idx
    have h2 := getVal_snd_eq_test o idx
    rw [(unionRec_getVal hn ho idx).1 ht] at h1
    rw [← h1, h2, ht]
  | oct :: rest, V, _, n, o, hn, ho, om, hon, idx, ht => by
    rw [Node.getNodeAt] at hon
    split at hon
    · cases hon
    · rename_i oc hoc
      have howf : oc.Wf := getChild_wf ho hoc
      rcases hnc : n.getChild oct with _ | nc
      · -- n has no child here: a clone of o's child is attached
        have hu : (n.unionRec o).getChild oct = some oc.cloneRec := by
          rw [(unionRec_getChild hn ho oct).1 oc hoc, hnc]
        refine ⟨om, ?_, ht, rfl⟩
        rw [Node.getNodeAt, hu, cloneRec_eq_self howf]
        exact hon
      · -- both have a child: recursive union
        have hu : (n.unionRec o).getChild oct = some (nc.unionRec oc) := by
          rw [(unionRec_getChild hn ho oct).1 oc hoc, hnc]
        rcases union_keeps_o (getChild_wf hn hnc) howf hon ht with ⟨rn, h1, h2, h3⟩
        refine ⟨rn, ?_, h2, h3⟩
        rw [Node.getNodeAt, hu]
        exact h1

/-- C6 part 2: a route of `n` at a path/index not set in `o` keeps its
pre-union value. -/
theorem union_keeps_n : ∀ {path : List Nat} {V : Type} [Inhabited V] {n o : Node V},
    n.Wf → o.Wf → ∀ {nn : Node V}, n.getNodeAt path = some nn → ∀ {idx : Nat},
    (∀ om, o.getNodeAt path = some om → bsTest om.prefixesBitset idx = false) →
    ∃ rn, (n.unionRec o).getNodeAt path = some rn ∧
      rn.getValByIndex idx = nn.getValByIndex idx
  | [], V, _, n, o, hn, ho, nn, hnn, idx, habs => by
    rw [Node.getNodeAt] at hnn
    cases hnn
    exact ⟨n.unionRec o, rfl, (unionRec_getVal hn ho idx).2 (habs o rfl)⟩
  | oct :: rest, V, _, n, o, hn, ho, nn, hnn, idx, habs => by
    rw [Node.getNodeAt] at hnn
    split at hnn
    · cases hnn
    · rename_i nc hnc
      have hnwf : nc.Wf := getChild_wf hn hnc
      rcases hoc : o.getChild oct with _ | oc
      · -- o has no child at this octet: n's subtree is untouched
        have hu : (n.unionRec o).getChild oct = n.getChild oct :=
          (unionRec_getChild hn ho oct).2 hoc
        refine ⟨nn, ?_, rfl⟩
        rw [Node.getNodeAt, hu, hnc]
        exact hnn
      · have howf : oc.Wf := getChild_wf ho hoc
        have hu : (n.unionRec o).getChild oct = some (nc.unionRec oc) := by
          rw [(unionRec_getChild hn ho oct).1 oc hoc, hnc]
        have habs' : ∀ om, oc.getNodeAt rest = some om →
            bsTest om.prefixesBitset idx = false := by
          intro om hon
          apply habs
          rw [Node.getNodeAt, hoc]
          exact hon
        rcases union_keeps_n hnwf howf hnn habs' with ⟨rn, h1, h2⟩
        refine ⟨rn, ?_, h2⟩
        rw [Node.getNodeAt, hu]
        exact h1

/-- C6 part 3: a child octet present in `o` at a path where `n` has no child
is attached to the union as a deep clone of `o`'s child. -/
theorem union_attaches_clone : ∀ {path : List Nat} {V : Type} [Inhabited V]
    {n o : Node V}, n.Wf → o.Wf → ∀ {nn om : Node V},
    n.getNodeAt path = some nn → o.getNodeAt path = some om → ∀ {oct : Nat},
    nn.getChild oct = none → ∀ {oc : Node V}, om.getChild oct = some oc →
    ∃ rn, (n.unionRec o).getNodeAt path = some rn ∧
      rn.getChild oct = some oc.cloneRec
  | [], V, _, n, o, hn, ho, nn, om, hnn, hon, oct, hno, oc, hoc => by
    rw [Node.getNodeAt] at hnn hon
    cases hnn
    cases hon
    refine ⟨n.unionRec o, rfl, ?_⟩
    rw [(unionRec_getChild hn ho oct).1 oc hoc, hno]
  | oct' :: rest, V, _, n, o, hn, ho, nn, om, hnn, hon, oct, hno, oc, hoc => by
    rw [Node.getNodeAt] at hnn hon
    split at hnn
    · cases hnn
    · rename_i nc hnc
      split at hon
      · cases hon
      · rename_i oc' hoc'
        have hu : (n.unionRec o).getChild oct' = some (nc.unionRec oc') := by
          rw [(unionRec_getChild hn ho oct').1 oc' hoc', hnc]
        rcases union_attaches_clone (getChild_wf hn hnc) (getChild_wf ho hoc')
            hnn hon hno hoc with ⟨rn, h1, h2⟩
        refine ⟨rn, ?_, h2⟩
        rw [Node.getNodeAt, hu]
        exact h1

/-! ## Arithmetic view of the base-index encoding (for claim C4)

Verification-side helpers: `log2b b` is the prefix length encoded by base
index `b` (the position of its leading bit), `octA b` the encoded octet and
`loA b`/`hiA b` the host-index range, in closed arithmetic form.  They are
related to the source's lookup tables by the finite bridge lemmas below. -/

def log2b (b : Nat) : Nat :=
  if 256 ≤ b then 8 else if 128 ≤ b then 7 else if 64 ≤ b then 6
  else if 32 ≤ b then 5 else if 16 ≤ b then 4 else if 8 ≤ b then 3
  else if 4 ≤ b then 2 else if 2 ≤ b then 1 else 0

def octA (b : Nat) : Nat := (b - 2 ^ log2b b) * 2 ^ (8 - log2b b)

def loA (b : Nat) : Nat := 256 + octA b

def hiA (b : Nat) : Nat := 256 + octA b + (2 ^ (8 - log2b b) - 1)

theorem log2b_le (b : Nat) : log2b b ≤ 8 := by
  unfold log2b
  split_ifs <;> omega

theorem log2b_spec {b : Nat} (h1 : 1 ≤ b) (h2 : b ≤ 511) :
    2 ^ log2b b ≤ b ∧ b < 2 ^ (log2b b + 1) := by
  unfold log2b
  split_ifs <;> norm_num <;> omega

theorem log2b_unique {m x : Nat} (hm : m ≤ 8) (h1 : 2 ^ m ≤ x) (h2 : x < 2 ^ (m + 1)) :
    log2b x = m := by
  interval_cases m <;> (norm_num at h1 h2; unfold log2b; split_ifs <;> omega)

set_option maxRecDepth 4096 in
/-- Bridge: the source's `lowerUpperBound` (driven by the transcribed lookup
table) agrees with the arithmetic host range on the valid domain. -/
theorem lowerUpperBound_eq_arith :
    ∀ b : Nat, b < 511 → lowerUpperBound (b + 1) = (loA (b + 1), hiA (b + 1)) := by
  decide

set_option maxRecDepth 4096 in
/-- Bridge: `prefixToBaseIndex` of a canonical (masked) octet encodes
exactly that octet and length. -/
theorem prefixToBaseIndex_arith :
    ∀ octet : Nat, octet < 256 → ∀ pfxLen : Nat, pfxLen < 9 →
      octet % 2 ^ (8 - pfxLen) = 0 →
      log2b (prefixToBaseIndex octet pfxLen) = pfxLen ∧
      octA (prefixToBaseIndex octet pfxLen) = octet := by
  decide

set_option maxRecDepth 4096 in
/-- Bridge: for a canonical octet, `octet ||| hostMask` is plain addition of
the mask, and the mask is `2^(8-len) - 1`. -/
theorem lor_hostMask_arith :
    ∀ octet : Nat, octet < 256 → ∀ pfxLen : Nat, pfxLen < 9 →
      octet % 2 ^ (8 - pfxLen) = 0 →
      octet ||| (255 >>> pfxLen) = octet + (2 ^ (8 - pfxLen) - 1) := by
  decide

set_option maxRecDepth 4096 in
theorem hostMasks_arith :
    ∀ pfxLen : Nat, pfxLen < 9 →
      hostMasks.getD pfxLen 0 = 255 >>> pfxLen ∧ 255 >>> pfxLen = 2 ^ (8 - pfxLen) - 1 := by
  decide

/-- Chain membership is the shift relation. -/
theorem mem_chain_iff : ∀ {p r : Nat}, r ∈ chain p ↔ (1 ≤ r ∧ ∃ k, p >>> k = r) := by
  intro p
  induction p using Nat.strong_induction_on with
  | _ p ih =>
    intro r
    match p with
    | 0 =>
      rw [chain_zero]
      simp only [List.not_mem_nil, false_iff, not_and]
      rintro h1 ⟨k, hk⟩
      rw [Nat.shiftRight_eq_div_pow, Nat.zero_div] at hk
      omega
    | p + 1 =>
      rw [chain_eq_of_pos (by omega), List.mem_cons, ih ((p + 1) / 2) (by omega)]
      constructor
      · rintro (rfl | ⟨h1, k, hk⟩)
        · exact ⟨by omega, 0, rfl⟩
        · refine ⟨h1, k + 1, ?_⟩
          have hsplit : (p + 1) >>> (k + 1) = ((p + 1) >>> 1) >>> k := by
            rw [show k + 1 = 1 + k by omega, Nat.shiftRight_add]
          rw [hsplit, Nat.shiftRight_one]
          exact hk
      · rintro ⟨h1, k, hk⟩
        match k with
        | 0 => exact Or.inl hk.symm
        | k + 1 =>
          refine Or.inr ⟨h1, k, ?_⟩
          have hsplit : (p + 1) >>> (k + 1) = ((p + 1) >>> 1) >>> k := by
            rw [show k + 1 = 1 + k by omega, Nat.shiftRight_add]
          rw [hsplit, Nat.shiftRight_one] at hk
          exact hk

theorem shiftRight_le_self (p k : Nat) : p >>> k ≤ p := by
  rw [Nat.shiftRight_eq_div_pow]
  exact Nat.div_le_self _ _

theorem log2b_shiftRight {p k : Nat} (hp1 : 1 ≤ p) (hp2 : p ≤ 511) (hk : k ≤ log2b p) :
    log2b (p >>> k) = log2b p - k := by
  rw [Nat.shiftRight_eq_div_pow]
  have hs := log2b_spec hp1 hp2
  have hle := log2b_le p
  have hpos : 0 < 2 ^ k := Nat.pos_pow_of_pos k (by omega)
  apply log2b_unique (by omega)
  · rw [Nat.le_div_iff_mul_le hpos, ← pow_add]
    calc 2 ^ (log2b p - k + k) = 2 ^ log2b p := by congr 1; omega
      _ ≤ p := hs.1
  · rw [Nat.div_lt_iff_lt_mul hpos, ← pow_add]
    calc p < 2 ^ (log2b p + 1) := hs.2
      _ = 2 ^ (log2b p - k + 1 + k) := by congr 1; omega

theorem shiftRight_pos {p k : Nat} (hp1 : 1 ≤ p) (hp2 : p ≤ 511) (hk : k ≤ log2b p) :
    1 ≤ p >>> k := by
  rw [Nat.shiftRight_eq_div_pow]
  have hs := log2b_spec hp1 hp2
  have hpos : 0 < 2 ^ k := Nat.pos_pow_of_pos k (by omega)
  rw [Nat.le_div_iff_mul_le hpos, one_mul]
  calc 2 ^ k ≤ 2 ^ log2b p := Nat.pow_le_pow_right (by omega) hk
    _ ≤ p := hs.1

/-- A `k`-fold shift of a base index covers its whole dyadic subinterval. -/
theorem range_of_shift {p k : Nat} (hp1 : 1 ≤ p) (hp2 : p ≤ 511) (hk : k ≤ log2b p) :
    loA (p >>> k) ≤ loA p ∧ hiA p ≤ hiA (p >>> k) := by
  have hL := log2b_le p
  have hs := log2b_spec hp1 hp2
  have hlr := log2b_shiftRight hp1 hp2 hk
  have hc : 0 < 2 ^ k := Nat.pos_pow_of_pos k (by omega)
  -- name the level, offset, divisor and quotient
  set L := log2b p with hLdef
  set c := 2 ^ k with hcdef
  set R := p - 2 ^ L with hRdef
  set D := R / c with hDdef
  have hDc : D * c ≤ R := Nat.div_mul_le_self R c
  have hRD : R < D * c + c := by
    have hdm : c * D + R % c = R := Nat.div_add_mod R c
    have hml : R % c < c := Nat.mod_lt R hc
    have hcomm : c * D = D * c := Nat.mul_comm c D
    omega
  -- the shifted index at its own level
  have hoct : octA (p >>> k) = D * (2 ^ (8 - L) * c) := by
    unfold octA
    rw [hlr, Nat.shiftRight_eq_div_pow, ← hcdef]
    have hdvd : 2 ^ L = c * 2 ^ (L - k) := by
      rw [hcdef, ← pow_add]
      congr 1
      omega
    have hrepr : p = c * 2 ^ (L - k) + R := by
      rw [← hdvd]
      omega
    have hq : p / c - 2 ^ (L - k) = D := by
      rw [hDdef]
      conv_lhs => rw [hrepr]
      rw [Nat.mul_add_div hc]
      exact Nat.add_sub_cancel_left _ _
    rw [hq]
    have hexp : 2 ^ (8 - (L - k)) = 2 ^ (8 - L) * c := by
      rw [hcdef, ← pow_add]
      congr 1
      omega
    rw [hexp]
  have hoctp : octA p = R * 2 ^ (8 - L) := by
    unfold octA
    rw [← hLdef, ← hRdef]
  set s := 2 ^ (8 - L) with hsdef
  have hspos : 0 < s := Nat.pos_pow_of_pos _ (by omega)
  have hexpsh : 2 ^ (8 - log2b (p >>> k)) = s * c := by
    rw [hlr, hsdef, hcdef, ← pow_add]
    congr 1
    omega
  constructor
  · unfold loA
    rw [hoct, hoctp]
    have h1 : D * (s * c) = D * c * s := by ring
    have h2 : D * c * s ≤ R * s := Nat.mul_le_mul hDc (le_refl s)
    linarith
  · unfold hiA
    rw [hoct, hoctp, hexpsh, ← hLdef, ← hsdef]
    have key : R * s + s ≤ D * (s * c) + s * c := by
      have h1 : (R + 1) * s ≤ (D * c + c) * s :=
        Nat.mul_le_mul (Nat.succ_le_of_lt hRD) (le_refl s)
      have h2 : (R + 1) * s = R * s + s := by ring
      have h3 : (D * c + c) * s = D * (s * c) + s * c := by ring
      linarith
    have h4 : 1 ≤ s * c := Nat.mul_pos hspos hc
    have h5 : 1 ≤ s := hspos
    zify [h4, h5] at key ⊢
    linarith

/-- Distinct base indices at the same level have disjoint host ranges. -/
theorem same_level_disjoint {a b : Nat} (ha1 : 1 ≤ a) (ha2 : a ≤ 511)
    (hb1 : 1 ≤ b) (hb2 : b ≤ 511) (hlev : log2b a = log2b b) (hne : a ≠ b) :
    hiA a < loA b ∨ hiA b < loA a := by
  have hsa := log2b_spec ha1 ha2
  have hsb := log2b_spec hb1 hb2
  have hRne : a - 2 ^ log2b a ≠ b - 2 ^ log2b b := by
    rw [hlev] at hsa ⊢
    omega
  unfold hiA loA octA
  rw [hlev] at hsa ⊢
  set L := log2b b
  set s := 2 ^ (8 - L)
  have hspos : 0 < s := Nat.pos_pow_of_pos _ (by omega)
  set Ra := a - 2 ^ L
  set Rb := b - 2 ^ L
  rcases Nat.lt_or_ge Ra Rb with hlt | hge
  · left
    have hmul : (Ra + 1) * s ≤ Rb * s := Nat.mul_le_mul (by omega) (le_refl s)
    have hex : (Ra + 1) * s = Ra * s + s := by ring
    omega
  · right
    have hlt2 : Rb < Ra := by omega
    have hmul : (Rb + 1) * s ≤ Ra * s := Nat.mul_le_mul (by omega) (le_refl s)
    have hex : (Rb + 1) * s = Rb * s + s := by ring
    omega

theorem loA_le_hiA (b : Nat) : loA b ≤ hiA b := by
  unfold loA hiA
  omega

/-- If two host ranges intersect and `r` is at a level at most `p`'s, then
`r` is the ancestor of `p` at its level. -/
theorem intersect_to_ancestor_of_le {p r : Nat} (hp1 : 1 ≤ p) (hp2 : p ≤ 511)
    (hr1 : 1 ≤ r) (hr2 : r ≤ 511) (hlev : log2b r ≤ log2b p)
    (hint : loA r ≤ hiA p ∧ loA p ≤ hiA r) :
    p >>> (log2b p - log2b r) = r := by
  set k := log2b p - log2b r with hkdef
  have hk : k ≤ log2b p := by omega
  have hc1 : 1 ≤ p >>> k := shiftRight_pos hp1 hp2 hk
  have hc2 : p >>> k ≤ 511 := le_trans (shiftRight_le_self p k) hp2
  have hclev : log2b (p >>> k) = log2b r := by
    rw [log2b_shiftRight hp1 hp2 hk]
    omega
  by_contra hne
  have hrange := range_of_shift hp1 hp2 hk
  rcases same_level_disjoint hc1 hc2 hr1 hr2 hclev hne with hd | hd
  · -- hi c < lo r, but lo r ≤ hi p ≤ hi c
    have := hrange.2
    omega
  · -- hi r < lo c, but lo c ≤ lo p ≤ hi r
    have := hrange.1
    omega

/-- Main dyadic fact: two host ranges intersect iff one index is an iterated
right shift of the other. -/
theorem intersect_iff_shift {p r : Nat} (hp1 : 1 ≤ p) (hp2 : p ≤ 511)
    (hr1 : 1 ≤ r) (hr2 : r ≤ 511) :
    (loA r ≤ hiA p ∧ loA p ≤ hiA r) ↔
    ((∃ k, p >>> k = r) ∨ (∃ k, r >>> k = p)) := by
  constructor
  · intro hint
    rcases Nat.le_total (log2b r) (log2b p) with hlev | hlev
    · exact Or.inl ⟨_, intersect_to_ancestor_of_le hp1 hp2 hr1 hr2 hlev hint⟩
    · exact Or.inr ⟨_, intersect_to_ancestor_of_le hr1 hr2 hp1 hp2 hlev ⟨hint.2, hint.1⟩⟩
  · intro h
    rcases h with ⟨k, hk⟩ | ⟨k, hk⟩
    · -- r is an ancestor of p: p's range is inside r's range
      have hkle : k ≤ log2b p := by
        by_contra hgt
        have hs := log2b_spec hp1 hp2
        rw [Nat.shiftRight_eq_div_pow] at hk
        have : p < 2 ^ k := by
          calc p < 2 ^ (log2b p + 1) := hs.2
            _ ≤ 2 ^ k := Nat.pow_le_pow_right (by omega) (by omega)
        rw [Nat.div_eq_of_lt this] at hk
        omega
      have := range_of_shift hp1 hp2 hkle
      rw [hk] at this
      have h1 := loA_le_hiA p
      omega
    · have hkle : k ≤ log2b r := by
        by_contra hgt
        have hs := log2b_spec hr1 hr2
        rw [Nat.shiftRight_eq_div_pow] at hk
        have : r < 2 ^ k := by
          calc r < 2 ^ (log2b r + 1) := hs.2
            _ ≤ 2 ^ k := Nat.pow_le_pow_right (by omega) (by omega)
        rw [Nat.div_eq_of_lt this] at hk
        omega
      have := range_of_shift hr1 hr2 hkle
      rw [hk] at this
      have h1 := loA_le_hiA r
      omega

/-- The decomposition matching the code of `overlapsPrefix`: intersection is
either "some chain element of `p` is `r`" (steps 1) or "`r` lies strictly
below `p` and its range is contained in `p`'s" (step 2's scan from `2*p`). -/
theorem range_intersect_iff {p r : Nat} (hp1 : 1 ≤ p) (hp2 : p ≤ 511)
    (hr1 : 1 ≤ r) (hr2 : r ≤ 511) :
    (loA r ≤ hiA p ∧ loA p ≤ hiA r) ↔
    (r ∈ chain p ∨ (2 * p ≤ r ∧ loA p ≤ loA r ∧ hiA r ≤ hiA p)) := by
  constructor
  · intro hint
    rcases (intersect_iff_shift hp1 hp2 hr1 hr2).1 hint with ⟨k, hk⟩ | ⟨k, hk⟩
    · exact Or.inl (mem_chain_iff.2 ⟨hr1, k, hk⟩)
    · match k with
      | 0 =>
        refine Or.inl (mem_chain_iff.2 ⟨hr1, 0, ?_⟩)
        simp only [Nat.shiftRight_zero] at hk ⊢
        omega
      | k + 1 =>
        right
        have hkle : k + 1 ≤ log2b r := by
          by_contra hgt
          have hs := log2b_spec hr1 hr2
          rw [Nat.shiftRight_eq_div_pow] at hk
          have hlt : r < 2 ^ (k + 1) := by
            calc r < 2 ^ (log2b r + 1) := hs.2
              _ ≤ 2 ^ (k + 1) := Nat.pow_le_pow_right (by omega) (by omega)
          rw [Nat.div_eq_of_lt hlt] at hk
          omega
        have hrange := range_of_shift hr1 hr2 hkle
        rw [hk] at hrange
        refine ⟨?_, hrange.1, hrange.2⟩
        rw [Nat.shiftRight_eq_div_pow] at hk
        have hmul : p * 2 ^ (k + 1) ≤ r := by
          rw [← hk]
          exact Nat.div_mul_le_self r _
        have h2le : 2 * p ≤ p * 2 ^ (k + 1) := by
          have h2 : 2 ≤ 2 ^ (k + 1) := by
            calc 2 = 2 ^ 1 := by norm_num
              _ ≤ 2 ^ (k + 1) := Nat.pow_le_pow_right (by omega) (by omega)
          calc 2 * p = p * 2 := by ring
            _ ≤ p * 2 ^ (k + 1) := Nat.mul_le_mul_left p h2
        omega
  · rintro (hchain | ⟨hle, hcon1, hcon2⟩)
    · obtain ⟨_, k, hk⟩ := mem_chain_iff.1 hchain
      exact (intersect_iff_shift hp1 hp2 hr1 hr2).2 (Or.inl ⟨k, hk⟩)
    · exact ⟨le_trans (loA_le_hiA r) hcon2, le_trans hcon1 (loA_le_hiA r)⟩

/-! ## Overlap symmetry (claim C5) -/

/-- `h` is a host index covered by the host range of some element of `l`. -/
def coversAny (l : List Nat) (h : Nat) : Prop :=
  ∃ x ∈ l, (lowerUpperBound x).1 ≤ h ∧ h ≤ (lowerUpperBound x).2

theorem coversAny_nil {h : Nat} : ¬ coversAny [] h := by
  simp [coversAny]

theorem coversAny_cons {x : Nat} {l : List Nat} {h : Nat} :
    coversAny (x :: l) h ↔
      (((lowerUpperBound x).1 ≤ h ∧ h ≤ (lowerUpperBound x).2) ∨ coversAny l h) := by
  constructor
  · rintro ⟨y, hy, hp⟩
    rcases List.mem_cons.1 hy with rfl | hy2
    · exact Or.inl hp
    · exact Or.inr ⟨y, hy2, hp⟩
  · rintro (hp | ⟨y, hy, hp⟩)
    · exact ⟨x, List.mem_cons_self x l, hp⟩
    · exact ⟨y, List.mem_cons_of_mem x hy, hp⟩

theorem anyMarked_iff {m : Nat → Bool} {lo hi : Nat} :
    anyMarked m lo hi = true ↔ ∃ h, lo ≤ h ∧ h ≤ hi ∧ m h = true := by
  unfold anyMarked
  rw [List.any_eq_true]
  constructor
  · rintro ⟨h, hm, hh⟩
    rw [List.mem_range'_1] at hm
    exact ⟨h, hm.1, by omega, hh⟩
  · rintro ⟨h, h1, h2, h3⟩
    exact ⟨h, by rw [List.mem_range'_1]; omega, h3⟩

theorem markRange_iff {lo hi : Nat} {m : Nat → Bool} {h : Nat} :
    markRange lo hi m h = true ↔ ((lo ≤ h ∧ h ≤ hi) ∨ m h = true) := by
  simp [markRange]

theorem cover_mark_iff {x : Nat} {l : List Nat} {m : Nat → Bool} {h : Nat} :
    (coversAny l h ∨ markRange (lowerUpperBound x).1 (lowerUpperBound x).2 m h = true) ↔
      (coversAny (x :: l) h ∨ m h = true) := by
  rw [markRange_iff, coversAny_cons]
  tauto

/-- Unfolding: early exit on the range of the next `n` index. -/
theorem zigzag_step_exit1 {nIdx : Nat} {ns os : List Nat} {na oa : Nat → Bool}
    (hp : anyMarked oa (lowerUpperBound nIdx).1 (lowerUpperBound nIdx).2 = true) :
    zigzag (nIdx :: ns) os na oa = (true, na, oa) := by
  rw [zigzag]
  rw [if_pos hp]

/-- Unfolding: `o` exhausted, mark the next `n` range and continue. -/
theorem zigzag_step_nil2 {nIdx : Nat} {ns : List Nat} {na oa : Nat → Bool}
    (hp : anyMarked oa (lowerUpperBound nIdx).1 (lowerUpperBound nIdx).2 = false) :
    zigzag (nIdx :: ns) [] na oa =
      zigzag ns [] (markRange (lowerUpperBound nIdx).1 (lowerUpperBound nIdx).2 na) oa := by
  rw [zigzag]
  rw [if_neg (by simp [hp])]

/-- Unfolding: early exit on the range of the next `o` index. -/
theorem zigzag_step_exit2 {nIdx oIdx : Nat} {ns os : List Nat} {na oa : Nat → Bool}
    (hp : anyMarked oa (lowerUpperBound nIdx).1 (lowerUpperBound nIdx).2 = false)
    (hq : anyMarked (markRange (lowerUpperBound nIdx).1 (lowerUpperBound nIdx).2 na)
        (lowerUpperBound oIdx).1 (lowerUpperBound oIdx).2 = true) :
    zigzag (nIdx :: ns) (oIdx :: os) na oa =
      (true, markRange (lowerUpperBound nIdx).1 (lowerUpperBound nIdx).2 na, oa) := by
  rw [zigzag]
  rw [if_neg (by simp [hp])]
  dsimp only
  rw [if_pos hq]

/-- Unfolding: a full zig-zag round without exit. -/
theorem zigzag_step_go {nIdx oIdx : Nat} {ns os : List Nat} {na oa : Nat → Bool}
    (hp : anyMarked oa (lowerUpperBound nIdx).1 (lowerUpperBound nIdx).2 = false)
    (hq : anyMarked (markRange (lowerUpperBound nIdx).1 (lowerUpperBound nIdx).2 na)
        (lowerUpperBound oIdx).1 (lowerUpperBound oIdx).2 = false) :
    zigzag (nIdx :: ns) (oIdx :: os) na oa =
      zigzag ns os (markRange (lowerUpperBound nIdx).1 (lowerUpperBound nIdx).2 na)
        (markRange (lowerUpperBound oIdx).1 (lowerUpperBound oIdx).2 oa) := by
  rw [zigzag]
  rw [if_neg (by simp [hp])]
  dsimp only
  rw [if_neg (by simp [hq])]

/-- Unfolding: `n` exhausted, early exit on the next `o` range. -/
theorem zigzagO_exit {oIdx : Nat} {os : List Nat} {na oa : Nat → Bool}
    (hq : anyMarked na (lowerUpperBound oIdx).1 (lowerUpperBound oIdx).2 = true) :
    zigzagO (oIdx :: os) na oa = (true, na, oa) := by
  rw [zigzagO]
  rw [if_pos hq]

/-- Unfolding: `n` exhausted, mark the next `o` range and continue. -/
theorem zigzagO_go {oIdx : Nat} {os : List Nat} {na oa : Nat → Bool}
    (hq : anyMarked na (lowerUpperBound oIdx).1 (lowerUpperBound oIdx).2 = false) :
    zigzagO (oIdx :: os) na oa =
      zigzagO os na (markRange (lowerUpperBound oIdx).1 (lowerUpperBound oIdx).2 oa) := by
  rw [zigzagO]
  rw [if_neg (by simp [hq])]

theorem zigzag_nilo {os : List Nat} {na oa : Nat → Bool} :
    zigzag [] os na oa = zigzagO os na oa := by
  rw [zigzag]

theorem zigzagO_nil {na oa : Nat → Bool} : zigzagO [] na oa = (false, na, oa) := by
  rw [zigzagO]

/-- Flag of the draining loop: fires iff some remaining `o` range meets
`n`'s (now fixed) allotment array. -/
theorem zigzagO_flag : ∀ (os : List Nat) (na oa : Nat → Bool),
    ((zigzagO os na oa).1 = true ↔ ∃ h, coversAny os h ∧ na h = true)
  | [], na, oa => by
    rw [zigzagO_nil]
    simp [coversAny]
  | oIdx :: os, na, oa => by
    rcases Or.symm (Bool.eq_false_or_eq_true
        (anyMarked na (lowerUpperBound oIdx).1 (lowerUpperBound oIdx).2)) with hq | hq
    · have hqn : ¬ ∃ h, ((lowerUpperBound oIdx).1 ≤ h ∧ h ≤ (lowerUpperBound oIdx).2) ∧
          na h = true := by
        rintro ⟨h, ⟨h1, h2⟩, h3⟩
        exact absurd (anyMarked_iff.2 ⟨h, h1, h2, h3⟩) (by simp [hq])
      rw [zigzagO_go hq, zigzagO_flag os na _]
      constructor
      · rintro ⟨h, hc, hna⟩
        exact ⟨h, coversAny_cons.2 (Or.inr hc), hna⟩
      · rintro ⟨h, hc, hna⟩
        rcases coversAny_cons.1 hc with hxo | hc2
        · exact absurd ⟨h, hxo, hna⟩ hqn
        · exact ⟨h, hc2, hna⟩
    · rw [zigzagO_exit hq]
      obtain ⟨h, h1, h2, hna⟩ := anyMarked_iff.1 hq
      exact iff_of_true rfl ⟨h, coversAny_cons.2 (Or.inl ⟨h1, h2⟩), hna⟩

/-- Arrays of the draining loop on a full run. -/
theorem zigzagO_arrays : ∀ (os : List Nat) (na oa : Nat → Bool),
    (zigzagO os na oa).1 = false →
    ∀ h, ((zigzagO os na oa).2.1 h = true ↔ na h = true) ∧
         ((zigzagO os na oa).2.2 h = true ↔ (coversAny os h ∨ oa h = true))
  | [], na, oa => by
    intro _ h
    rw [zigzagO_nil]
    refine ⟨Iff.rfl, ?_⟩
    constructor
    · intro hx
      exact Or.inr hx
    · rintro (hc | hx)
      · exact absurd hc coversAny_nil
      · exact hx
  | oIdx :: os, na, oa => by
    intro hflag h
    rcases Or.symm (Bool.eq_false_or_eq_true
        (anyMarked na (lowerUpperBound oIdx).1 (lowerUpperBound oIdx).2)) with hq | hq
    · rw [zigzagO_go hq] at hflag ⊢
      have IH := zigzagO_arrays os na _ hflag h
      refine ⟨IH.1, ?_⟩
      rw [IH.2]
      exact cover_mark_iff
    · rw [zigzagO_exit hq] at hflag
      exact Bool.noConfusion hflag

/-- The zig-zag's early-exit flag fires exactly on a cross intersection: a
host index covered both on the `n` side (by a new index, against the initial
or accumulated `o` state) or symmetrically on the `o` side against `n`'s
initial array. -/
theorem zigzag_flag : ∀ (ns os : List Nat) (na oa : Nat → Bool),
    ((zigzag ns os na oa).1 = true ↔
      ((∃ h, coversAny ns h ∧ (oa h = true ∨ coversAny os h)) ∨
       (∃ h, coversAny os h ∧ na h = true)))
  | [], os, na, oa => by
    rw [zigzag_nilo, zigzagO_flag os na oa]
    constructor
    · intro hx
      exact Or.inr hx
    · rintro (⟨h, hc, _⟩ | hx)
      · exact absurd hc coversAny_nil
      · exact hx
  | nIdx :: ns, os, na, oa => by
    rcases Or.symm (Bool.eq_false_or_eq_true
        (anyMarked oa (lowerUpperBound nIdx).1 (lowerUpperBound nIdx).2)) with hp | hp
    · have hpn : ¬ ∃ h, ((lowerUpperBound nIdx).1 ≤ h ∧ h ≤ (lowerUpperBound nIdx).2) ∧
          oa h = true := by
        rintro ⟨h, ⟨h1, h2⟩, h3⟩
        exact absurd (anyMarked_iff.2 ⟨h, h1, h2, h3⟩) (by simp [hp])
      cases os with
      | nil =>
        rw [zigzag_step_nil2 hp, zigzag_flag ns [] _ oa]
        constructor
        · rintro (⟨h, hc, hrest⟩ | ⟨h, hc, _⟩)
          · exact Or.inl ⟨h, coversAny_cons.2 (Or.inr hc), hrest⟩
          · exact absurd hc coversAny_nil
        · rintro (⟨h, hc, hrest⟩ | ⟨h, hc, _⟩)
          · rcases coversAny_cons.1 hc with hx | hc2
            · rcases hrest with hoa | hnil
              · exact absurd ⟨h, hx, hoa⟩ hpn
              · exact absurd hnil coversAny_nil
            · exact Or.inl ⟨h, hc2, hrest⟩
          · exact absurd hc coversAny_nil
      | cons oIdx os2 =>
        rcases Or.symm (Bool.eq_false_or_eq_true
            (anyMarked (markRange (lowerUpperBound nIdx).1 (lowerUpperBound nIdx).2 na)
              (lowerUpperBound oIdx).1 (lowerUpperBound oIdx).2)) with hq | hq
        · have hqn : ¬ ∃ h, ((lowerUpperBound oIdx).1 ≤ h ∧ h ≤ (lowerUpperBound oIdx).2) ∧
              (((lowerUpperBound nIdx).1 ≤ h ∧ h ≤ (lowerUpperBound nIdx).2) ∨ na h = true) := by
            rintro ⟨h, ⟨h1, h2⟩, hrest⟩
            exact absurd (anyMarked_iff.2 ⟨h, h1, h2, markRange_iff.2 hrest⟩) (by simp [hq])
          rw [zigzag_step_go hp hq, zigzag_flag ns os2 _ _]
          constructor
          · rintro (⟨h, hc, hrest⟩ | ⟨h, hc, hna2⟩)
            · refine Or.inl ⟨h, coversAny_cons.2 (Or.inr hc), ?_⟩
              rcases hrest with hoam | hcos2
              · rcases markRange_iff.1 hoam with hxo | hoa
                · exact Or.inr (coversAny_cons.2 (Or.inl hxo))
                · exact Or.inl hoa
              · exact Or.inr (coversAny_cons.2 (Or.inr hcos2))
            · rcases markRange_iff.1 hna2 with hxn | hna
              · exact Or.inl ⟨h, coversAny_cons.2 (Or.inl hxn),
                  Or.inr (coversAny_cons.2 (Or.inr hc))⟩
              · exact Or.inr ⟨h, coversAny_cons.2 (Or.inr hc), hna⟩
          · rintro (⟨h, hc, hrest⟩ | ⟨h, hc, hna⟩)
            · rcases coversAny_cons.1 hc with hxn | hcns
              · rcases hrest with hoa | hcos
                · exact absurd ⟨h, hxn, hoa⟩ hpn
                · rcases coversAny_cons.1 hcos with hxo | hcos2
                  · exact absurd ⟨h, hxo, Or.inl hxn⟩ hqn
                  · exact Or.inr ⟨h, hcos2, markRange_iff.2 (Or.inl hxn)⟩
              · refine Or.inl ⟨h, hcns, ?_⟩
                rcases hrest with hoa | hcos
                · exact Or.inl (markRange_iff.2 (Or.inr hoa))
                · rcases coversAny_cons.1 hcos with hxo | hcos2
                  · exact Or.inl (markRange_iff.2 (Or.inl hxo))
                  · exact Or.inr hcos2
            · rcases coversAny_cons.1 hc with hxo | hcos2
              · exact absurd ⟨h, hxo, Or.inr hna⟩ hqn
              · exact Or.inr ⟨h, hcos2, markRange_iff.2 (Or.inr hna)⟩
        · rw [zigzag_step_exit2 hp hq]
          obtain ⟨h, h1, h2, hm⟩ := anyMarked_iff.1 hq
          rcases markRange_iff.1 hm with hx | hna
          · exact iff_of_true rfl (Or.inl ⟨h, coversAny_cons.2 (Or.inl hx),
              Or.inr (coversAny_cons.2 (Or.inl ⟨h1, h2⟩))⟩)
          · exact iff_of_true rfl (Or.inr ⟨h, coversAny_cons.2 (Or.inl ⟨h1, h2⟩), hna⟩)
    · rw [zigzag_step_exit1 hp]
      obtain ⟨h, h1, h2, hoa⟩ := anyMarked_iff.1 hp
      exact iff_of_true rfl (Or.inl ⟨h, coversAny_cons.2 (Or.inl ⟨h1, h2⟩), Or.inl hoa⟩)

/-- When the zig-zag runs to completion, the two allotment arrays hold
exactly the union of the host ranges of their side's indices (on top of the
initial arrays). -/
theorem zigzag_arrays : ∀ (ns os : List Nat) (na oa : Nat → Bool),
    (zigzag ns os na oa).1 = false →
    ∀ h, ((zigzag ns os na oa).2.1 h = true ↔ (coversAny ns h ∨ na h = true)) ∧
         ((zigzag ns os na oa).2.2 h = true ↔ (coversAny os h ∨ oa h = true))
  | [], os, na, oa => by
    intro hflag h
    rw [zigzag_nilo] at hflag ⊢
    have IH := zigzagO_arrays os na oa hflag h
    refine ⟨?_, IH.2⟩
    rw [IH.1]
    constructor
    · intro hx
      exact Or.inr hx
    · rintro (hc | hx)
      · exact absurd hc coversAny_nil
      · exact hx
  | nIdx :: ns, os, na, oa => by
    intro hflag h
    rcases Or.symm (Bool.eq_false_or_eq_true
        (anyMarked oa (lowerUpperBound nIdx).1 (lowerUpperBound nIdx).2)) with hp | hp
    · cases os with
      | nil =>
        rw [zigzag_step_nil2 hp] at hflag ⊢
        have IH := zigzag_arrays ns [] _ oa hflag h
        refine ⟨?_, IH.2⟩
        rw [IH.1]
        exact cover_mark_iff
      | cons oIdx os2 =>
        rcases Or.symm (Bool.eq_false_or_eq_true
            (anyMarked (markRange (lowerUpperBound nIdx).1 (lowerUpperBound nIdx).2 na)
              (lowerUpperBound oIdx).1 (lowerUpperBound oIdx).2)) with hq | hq
        · rw [zigzag_step_go hp hq] at hflag ⊢
          have IH := zigzag_arrays ns os2 _ _ hflag h
          constructor
          · rw [IH.1]
            exact cover_mark_iff
          · rw [IH.2]
            exact cover_mark_iff
        · rw [zigzag_step_exit2 hp hq] at hflag
          exact Bool.noConfusion hflag
    · rw [zigzag_step_exit1 hp] at hflag
      exact Bool.noConfusion hflag



/-- The phase-3 loop answers: is there an octet in the scan list where both
nodes have a child and the two children overlap? -/
theorem overlapsChildren_iff {n o : Node V} :
    ∀ l : List Nat, (Node.overlapsChildren n o l = true ↔
      ∃ i ∈ l, ∃ nc oc, n.getChild i = some nc ∧ o.getChild i = some oc ∧
        Node.overlapsRec nc oc = true)
  | [] => by
    simp [Node.overlapsChildren]
  | i :: rest => by
    rw [Node.overlapsChildren]
    rw [Bool.or_eq_true, overlapsChildren_iff rest]
    constructor
    · rintro (hfst | ⟨j, hj, rest2⟩)
      · rw [Bool.and_eq_true, Bool.and_eq_true] at hfst
        obtain ⟨⟨htn, hto⟩, hm⟩ := hfst
        split at hm
        · rename_i nc oc heq1 heq2
          exact ⟨i, List.mem_cons_self i rest, nc, oc, heq1, heq2, hm⟩
        · exact Bool.noConfusion hm
      · exact ⟨j, List.mem_cons_of_mem i hj, rest2⟩
    · rintro ⟨j, hj, nc, oc, h1, h2, h3⟩
      rcases List.mem_cons.1 hj with rfl | hj2
      · refine Or.inl ?_
        rw [Bool.and_eq_true, Bool.and_eq_true]
        refine ⟨⟨test_of_getChild_some h1, test_of_getChild_some h2⟩, ?_⟩
        split
        · rename_i nc2 oc2 heq1 heq2
          rw [h1] at heq1
          rw [h2] at heq2
          obtain rfl := Option.some.inj heq1
          obtain rfl := Option.some.inj heq2
          exact h3
        · rename_i hcontra
          exact (hcontra nc oc h1 h2).elim
      · exact Or.inr ⟨j, hj2, nc, oc, h1, h2, h3⟩

/-- Unfolding `overlapsRec` when the zig-zag exits early. -/
theorem overlapsRec_of_zigzag_true {n o : Node V}
    (hz : (zigzag n.prefixesBitset o.prefixesBitset
        (fun _ => false) (fun _ => false)).1 = true) :
    Node.overlapsRec n o = true := by
  rw [Node.overlapsRec]
  rcases hzz : zigzag n.prefixesBitset o.prefixesBitset
      (fun _ => false) (fun _ => false) with ⟨flag, nA, oA⟩
  rw [hzz] at hz
  have hf : flag = true := hz
  subst hf
  rfl

/-- Unfolding `overlapsRec` when the zig-zag runs to completion. -/
theorem overlapsRec_of_zigzag_false {n o : Node V} {nA oA : Nat → Bool}
    (hz : zigzag n.prefixesBitset o.prefixesBitset
        (fun _ => false) (fun _ => false) = (false, nA, oA)) :
    Node.overlapsRec n o =
      (if (decide (0 < n.prefixes.length) && decide (0 < o.prefixes.length)) &&
          anyMarked (fun i => nA i && oA i) firstHostIndex lastHostIndex then true
       else if n.childrenBitset.any (fun oct => oA (oct + firstHostIndex)) then true
       else if o.childrenBitset.any (fun oct => nA (oct + firstHostIndex)) then true
       else Node.overlapsChildren n o (List.range maxNodeChildren)) := by
  rw [Node.overlapsRec]
  rw [hz]

/-- Full characterisation of `overlapsRec` on well-formed nodes: it answers
exactly "do the two nodes overlap", i.e. some pair of stored routes has
intersecting host ranges, some child octet of one node is covered by a route
of the other, or children at a common octet overlap recursively. -/
theorem overlapsRec_iff {n o : Node V} (hn : n.Wf) (ho : o.Wf) :
    Node.overlapsRec n o = true ↔
      ((∃ h, coversAny n.prefixesBitset h ∧ coversAny o.prefixesBitset h) ∨
       (∃ c ∈ n.childrenBitset, coversAny o.prefixesBitset (c + firstHostIndex)) ∨
       (∃ c ∈ o.childrenBitset, coversAny n.prefixesBitset (c + firstHostIndex)) ∨
       (∃ i, ∃ nc oc, n.getChild i = some nc ∧ o.getChild i = some oc ∧
         Node.overlapsRec nc oc = true)) := by
  rcases hz : zigzag n.prefixesBitset o.prefixesBitset
      (fun _ => false) (fun _ => false) with ⟨flag, nA, oA⟩
  cases flag with
  | true =>
    have hfl : (zigzag n.prefixesBitset o.prefixesBitset
        (fun _ => false) (fun _ => false)).1 = true := by rw [hz]
    rw [overlapsRec_of_zigzag_true hfl]
    have hcross := (zigzag_flag n.prefixesBitset o.prefixesBitset _ _).1 hfl
    refine iff_of_true rfl ?_
    rcases hcross with ⟨h, h1, h2⟩ | ⟨h, _, hfalse⟩
    · rcases h2 with hf | h2
      · exact Bool.noConfusion hf
      · exact Or.inl ⟨h, h1, h2⟩
    · exact Bool.noConfusion hfalse
  | false =>
    rw [overlapsRec_of_zigzag_false hz]
    have hfl : (zigzag n.prefixesBitset o.prefixesBitset
        (fun _ => false) (fun _ => false)).1 = false := by rw [hz]
    have harr := zigzag_arrays n.prefixesBitset o.prefixesBitset _ _ hfl
    have hnA : ∀ h, nA h = true ↔ coversAny n.prefixesBitset h := by
      intro h
      have h1 := (harr h).1
      rw [hz] at h1
      simpa using h1
    have hoA : ∀ h, oA h = true ↔ coversAny o.prefixesBitset h := by
      intro h
      have h1 := (harr h).2
      rw [hz] at h1
      simpa using h1
    have hnofl : ¬ ∃ h, coversAny n.prefixesBitset h ∧ coversAny o.prefixesBitset h := by
      rintro ⟨h, h1, h2⟩
      have := (zigzag_flag n.prefixesBitset o.prefixesBitset
          (fun _ => false) (fun _ => false)).2 (Or.inl ⟨h, h1, Or.inr h2⟩)
      rw [hz] at this
      exact Bool.noConfusion this
    have hscan : anyMarked (fun i => nA i && oA i) firstHostIndex lastHostIndex = false := by
      rcases Bool.eq_false_or_eq_true
          (anyMarked (fun i => nA i && oA i) firstHostIndex lastHostIndex) with ht | hf
      · obtain ⟨h, _, _, hb⟩ := anyMarked_iff.1 ht
        rw [Bool.and_eq_true] at hb
        exact absurd ⟨h, (hnA h).1 hb.1, (hoA h).1 hb.2⟩ hnofl
      · exact hf
    have h2a : (n.childrenBitset.any fun oct => oA (oct + firstHostIndex)) = true ↔
        ∃ c ∈ n.childrenBitset, coversAny o.prefixesBitset (c + firstHostIndex) := by
      rw [List.any_eq_true]
      constructor
      · rintro ⟨c, hc, hx⟩
        exact ⟨c, hc, (hoA _).1 hx⟩
      · rintro ⟨c, hc, hx⟩
        exact ⟨c, hc, (hoA _).2 hx⟩
    have h2b : (o.childrenBitset.any fun oct => nA (oct + firstHostIndex)) = true ↔
        ∃ c ∈ o.childrenBitset, coversAny n.prefixesBitset (c + firstHostIndex) := by
      rw [List.any_eq_true]
      constructor
      · rintro ⟨c, hc, hx⟩
        exact ⟨c, hc, (hnA _).1 hx⟩
      · rintro ⟨c, hc, hx⟩
        exact ⟨c, hc, (hnA _).2 hx⟩
    rw [if_neg (by simp [hscan])]
    rcases Or.symm (Bool.eq_false_or_eq_true
        (n.childrenBitset.any fun oct => oA (oct + firstHostIndex))) with ha | ha
    · rw [if_neg (by simp [ha])]
      rcases Or.symm (Bool.eq_false_or_eq_true
          (o.childrenBitset.any fun oct => nA (oct + firstHostIndex))) with hb | hb
      · rw [if_neg (by simp [hb])]
        rw [overlapsChildren_iff]
        constructor
        · rintro ⟨i, _, nc, oc, h1, h2, h3⟩
          exact Or.inr (Or.inr (Or.inr ⟨i, nc, oc, h1, h2, h3⟩))
        · rintro (hA | hB | hC | ⟨i, nc, oc, h1, h2, h3⟩)
          · exact absurd hA hnofl
          · exact absurd (h2a.2 hB) (by simp [ha])
          · exact absurd (h2b.2 hC) (by simp [hb])
          · refine ⟨i, ?_, nc, oc, h1, h2, h3⟩
            have hmem := bsTest_iff.1 (test_of_getChild_some h1)
            have hbd := hn.cbBounds i hmem
            rw [List.mem_range]
            unfold maxNodeChildren
            omega
      · rw [if_pos hb]
        exact iff_of_true rfl (Or.inr (Or.inr (Or.inl (h2b.1 hb))))
    · rw [if_pos ha]
      exact iff_of_true rfl (Or.inr (Or.inl (h2a.1 ha)))

/-- Overlap is symmetric, `true` direction; recursion on the node sizes. -/
theorem overlapsRec_true_symm : ∀ {n o : Node V}, n.Wf → o.Wf →
    Node.overlapsRec n o = true → Node.overlapsRec o n = true := by
  intro n o hn ho hno
  rw [overlapsRec_iff hn ho] at hno
  rw [overlapsRec_iff ho hn]
  rcases hno with ⟨h, h1, h2⟩ | ⟨c, hc, hcov⟩ | ⟨c, hc, hcov⟩ | ⟨i, nc, oc, h1, h2, h3⟩
  · exact Or.inl ⟨h, h2, h1⟩
  · exact Or.inr (Or.inr (Or.inl ⟨c, hc, hcov⟩))
  · exact Or.inr (Or.inl ⟨c, hc, hcov⟩)
  · have _s1 : sizeOf nc < sizeOf n := Node.sizeOf_lt_of_mem_children (Node.getChild_mem h1)
    have _s2 : sizeOf oc < sizeOf o := Node.sizeOf_lt_of_mem_children (Node.getChild_mem h2)
    exact Or.inr (Or.inr (Or.inr ⟨i, oc, nc, h2, h1,
      overlapsRec_true_symm (getChild_wf hn h1) (getChild_wf ho h2) h3⟩))
termination_by n o _ _ _ => sizeOf n + sizeOf o
decreasing_by simp_wf; omega

/-- Overlap is symmetric on well-formed nodes. -/
theorem overlapsRec_symm {n o : Node V} (hn : n.Wf) (ho : o.Wf) :
    Node.overlapsRec n o = Node.overlapsRec o n := by
  rcases hx : Node.overlapsRec n o with _ | _ <;>
    rcases hy : Node.overlapsRec o n with _ | _
  · rfl
  · have := overlapsRec_true_symm ho hn hy
    rw [hx] at this
    exact this
  · have := overlapsRec_true_symm hn ho hx
    rw [hy] at this
    exact this.symm
  · rfl

/-! ## MARKER: further development is inserted above this line -/

/-! ## Claim theorems -/

/-- Claim C1: for every stride node `n` and base index `idx` in `[1, 511]`,
`lpmByIndex(n, idx)` returns `(i, v, true)` where `i` is the first index of
the backtracking chain `idx, idx>>1, ..., 1` whose bit is set in the prefix
bit-set and `v` is the value stored for `i`; if no chain index is set it
returns `(0, zero value, false)`. -/
theorem claim_C1_lpm_backtracking {V : Type} [Inhabited V] {n : Node V} (h : n.Wf)
    {idx : Nat} (h1 : 1 ≤ idx) (_h2 : idx ≤ 511) :
    n.lpmByIndex idx =
      match (chain idx).find? (fun t => bsTest n.prefixesBitset t) with
      | some t => (t, (n.getValByIndex t).1, true)
      | none => (0, default, false) := by
  have h0 : bsTest n.prefixesBitset 0 = false := by
    rw [bsTest_eq_false_iff]
    intro hm
    have := h.pbBounds 0 hm
    omega
  exact lpmByIndex_eq_find h0 h1

theorem claim_C1_witness :
    sampleNode.lpmByIndex 300 =
      match (chain 300).find? (fun t => bsTest sampleNode.prefixesBitset t) with
      | some t => (t, (sampleNode.getValByIndex t).1, true)
      | none => (0, default, false) :=
  claim_C1_lpm_backtracking sampleNode_wf (by omega) (by omega)

/-- Claim C3: after `insertPrefix(o, len, v)`, `getValByPrefix(o, len)`
returns `(v, true)`; after a subsequent `deletePrefix(o, len)` the lookup
reports `ok = false`, and a second `deletePrefix(o, len)` returns `false`. -/
theorem claim_C3_insert_get_delete {V : Type} [Inhabited V] {n : Node V} (h : n.Wf)
    {octet prefixLen : Nat} (ho : octet ≤ 255) (hl : prefixLen ≤ 8) (v : V) :
    (n.insertPfx octet prefixLen v).getValByPfx octet prefixLen = (v, true) ∧
    (((n.insertPfx octet prefixLen v).deletePfx octet prefixLen).1.getValByPfx
        octet prefixLen).2 = false ∧
    ((((n.insertPfx octet prefixLen v).deletePfx octet prefixLen).1).deletePfx
        octet prefixLen).2 = false := by
  have hb := prefixToBaseIndex_bounds ho hl
  have h1 : (n.insertPfx octet prefixLen v).Wf := insertIdx_wf h hb.1 hb.2 v
  have htd := test_deletePfx_self h1 octet prefixLen
  refine ⟨getVal_insertIdx_self h _ v, ?_, ?_⟩
  · unfold Node.getValByPfx
    rw [getVal_of_test_false htd]
  · rw [deletePfx_of_test_false htd]

theorem claim_C3_witness :
    (sampleNode.insertPfx 32 6 5).getValByPfx 32 6 = (5, true) ∧
    (((sampleNode.insertPfx 32 6 5).deletePfx 32 6).1.getValByPfx 32 6).2 = false ∧
    ((((sampleNode.insertPfx 32 6 5).deletePfx 32 6).1).deletePfx 32 6).2 = false :=
  claim_C3_insert_get_delete sampleNode_wf (by omega) (by omega) 5

/-- Claim C7: `deletePrefix` of an absent base index returns `false` and
leaves the node completely unchanged; and after any `deletePrefix`, deleting
the same prefix again returns `false` and is a no-op. -/
theorem claim_C7_delete_idempotent {V : Type} {n : Node V} (h : n.Wf)
    (octet prefixLen : Nat) :
    (bsTest n.prefixesBitset (prefixToBaseIndex octet prefixLen) = false →
      n.deletePfx octet prefixLen = (n, false)) ∧
    (n.deletePfx octet prefixLen).1.deletePfx octet prefixLen
      = ((n.deletePfx octet prefixLen).1, false) := by
  refine ⟨fun ht => deletePfx_of_test_false ht, ?_⟩
  exact deletePfx_of_test_false (test_deletePfx_self h octet prefixLen)

theorem claim_C7_witness :
    (sampleNode.deletePfx 7 8 = (sampleNode, false)) ∧
    (sampleNode.deletePfx 32 6).1.deletePfx 32 6
      = ((sampleNode.deletePfx 32 6).1, false) :=
  ⟨(claim_C7_delete_idempotent sampleNode_wf 7 8).1 (by decide),
   (claim_C7_delete_idempotent sampleNode_wf 32 6).2⟩

set_option maxRecDepth 4096 in
/-- Claim C8: the lookup table `baseIdx2Pfx` is the exact inverse of the
base-index encoding: for `b` in `[1, 511]` it yields `(octet, pfxLen)` with
`pfxLen` in `[0, 8]` and `prefixToBaseIndex octet pfxLen = b`; and for every
byte octet, `prefixToBaseIndex octet 0 = 1`. -/
theorem claim_C8_base_index_inverse :
    (∀ b : Nat, 1 ≤ b → b ≤ 511 →
      0 ≤ (baseIndexToPfx b).2 ∧ (baseIndexToPfx b).2 ≤ 8 ∧
      prefixToBaseIndex (baseIndexToPfx b).1 (baseIndexToPfx b).2.toNat = b) ∧
    (∀ octet : Nat, octet ≤ 255 → prefixToBaseIndex octet 0 = 1) := by
  constructor
  · intro b hb1 hb2
    have h : ∀ b' : Nat, b' < 512 → 1 ≤ b' →
        0 ≤ (baseIndexToPfx b').2 ∧ (baseIndexToPfx b').2 ≤ 8 ∧
        prefixToBaseIndex (baseIndexToPfx b').1 (baseIndexToPfx b').2.toNat = b' := by
      decide
    exact h b (by omega) hb1
  · intro o ho
    have h : ∀ o' : Nat, o' < 256 → prefixToBaseIndex o' 0 = 1 := by decide
    exact h o (by omega)

theorem claim_C8_witness :
    (0 ≤ (baseIndexToPfx 72).2 ∧ (baseIndexToPfx 72).2 ≤ 8 ∧
      prefixToBaseIndex (baseIndexToPfx 72).1 (baseIndexToPfx 72).2.toNat = 72) ∧
    prefixToBaseIndex 200 0 = 1 :=
  ⟨claim_C8_base_index_inverse.1 72 (by omega) (by omega),
   claim_C8_base_index_inverse.2 200 (by omega)⟩

/-- Claim C9: under the popcount invariant, a set prefix bit (resp. child
bit) yields a rank in `[0, len(prefixes))` (resp. `[0, len(children))`), so
every slice access guarded by a bit test is in bounds; in particular a set
child bit always yields a child pointer (the nil branch is unreachable). -/
theorem claim_C9_rank_in_bounds {V : Type} {n : Node V} (h : n.Wf) :
    (∀ idx : Nat, bsTest n.prefixesBitset idx = true →
      0 ≤ n.prefixRank idx ∧ n.prefixRank idx < (n.prefixes.length : Int)) ∧
    (∀ oct : Nat, bsTest n.childrenBitset oct = true →
      0 ≤ n.childRank oct ∧ n.childRank oct < (n.children.length : Int)) ∧
    (∀ oct : Nat, bsTest n.childrenBitset oct = true →
      ∃ c, n.getChild oct = some c) :=
  ⟨fun _ ht => prefixRank_bounds h ht,
   fun _ ht => childRank_bounds h ht,
   fun _ ht => getChild_some_of_test h ht⟩

theorem claim_C9_witness :
    (0 ≤ sampleNode.prefixRank 72 ∧
      sampleNode.prefixRank 72 < (sampleNode.prefixes.length : Int)) ∧
    (0 ≤ sampleNode.childRank 5 ∧
      sampleNode.childRank 5 < (sampleNode.children.length : Int)) ∧
    ∃ c, sampleNode.getChild 5 = some c :=
  ⟨(claim_C9_rank_in_bounds sampleNode_wf).1 72 (by decide),
   (claim_C9_rank_in_bounds sampleNode_wf).2.1 5 (by decide),
   (claim_C9_rank_in_bounds sampleNode_wf).2.2 5 (by decide)⟩

/-- Claim C10: `deleteChild` at an octet with no child is a valid no-op: it
returns without failure and leaves the node (both bit-sets and both slices)
unchanged. -/
theorem claim_C10_delete_child_noop {V : Type} {n : Node V} {octet : Nat}
    (ht : bsTest n.childrenBitset octet = false) :
    n.deleteChild octet = n :=
  deleteChild_of_test_false ht

theorem claim_C10_witness : sampleNode.deleteChild 9 = sampleNode :=
  claim_C10_delete_child_noop (by decide)

/-- Claim C2: every stride node reachable from a fresh node by any sequence
of the node operations (insertPrefix/insertIdx, deletePrefix, updatePrefix,
insertChild, deleteChild, unionRec, cloneRec) satisfies
`len(prefixes) = popcount(prefixesBitset)` and
`len(children) = popcount(childrenBitset)` (popcount being the number of set
indices), and the value (resp. child) at slot `k` serves exactly the `k`-th
set bit of the companion bit-set. -/
theorem claim_C2_popcount_invariant {V : Type} [Inhabited V] {n : Node V}
    (hr : Reachable n) :
    n.prefixes.length = n.prefixesBitset.length ∧
    n.children.length = n.childrenBitset.length ∧
    (∀ k i, n.prefixesBitset.get? k = some i →
      n.getValByIndex i = (n.prefixes.getD k default, true)) ∧
    (∀ k oct, n.childrenBitset.get? k = some oct →
      n.getChild oct = n.children.get? k) := by
  have h := reachable_wf hr
  exact ⟨h.psLen, h.csLen, (wf_slot_correspondence h).1, (wf_slot_correspondence h).2⟩

/-- A node built with insert, child attach and union, for the C2 witness. -/
def reachNode : Node Nat :=
  ((Node.newNode Nat).insertPfx 32 6 7).unionRec
    ((Node.newNode Nat).insertChild 5 ((Node.newNode Nat).insertPfx 40 8 9))

theorem reachNode_reachable : Reachable reachNode :=
  Reachable.unionRec
    (Reachable.insertPfx Reachable.new (by omega) (by omega) 7)
    (Reachable.insertChild Reachable.new
      (Reachable.insertPfx Reachable.new (by omega) (by omega) 9) (by omega))

theorem claim_C2_witness :
    reachNode.prefixes.length = reachNode.prefixesBitset.length ∧
    reachNode.children.length = reachNode.childrenBitset.length ∧
    (∀ k i, reachNode.prefixesBitset.get? k = some i →
      reachNode.getValByIndex i = (reachNode.prefixes.getD k default, true)) ∧
    (∀ k oct, reachNode.childrenBitset.get? k = some oct →
      reachNode.getChild oct = reachNode.children.get? k) :=
  claim_C2_popcount_invariant reachNode_reachable

/-- Claim C6: after `unionRec(n, o)`, every base index set in `o` (at any
octet path of `o`'s subtree) is set at the corresponding path of the result
and carries `o`'s value; every prefix of `n` whose (path, base index) is not
present in `o` keeps its pre-union value; and every child octet present in
`o` at a path where `n` has no child is attached as a deep clone of `o`'s
child.  In this by-value embedding the argument `o` is returned untouched by
construction, which renders the "leaving o unmodified" part implicit. -/
theorem claim_C6_union_semantics {V : Type} [Inhabited V] {n o : Node V}
    (hn : n.Wf) (ho : o.Wf) :
    (∀ (path : List Nat) (om : Node V), o.getNodeAt path = some om → ∀ idx : Nat,
      bsTest om.prefixesBitset idx = true →
      ∃ rn, (n.unionRec o).getNodeAt path = some rn ∧
        bsTest rn.prefixesBitset idx = true ∧
        rn.getValByIndex idx = om.getValByIndex idx) ∧
    (∀ (path : List Nat) (nn : Node V), n.getNodeAt path = some nn → ∀ idx : Nat,
      (∀ om, o.getNodeAt path = some om → bsTest om.prefixesBitset idx = false) →
      ∃ rn, (n.unionRec o).getNodeAt path = some rn ∧
        rn.getValByIndex idx = nn.getValByIndex idx) ∧
    (∀ (path : List Nat) (nn om : Node V), n.getNodeAt path = some nn →
      o.getNodeAt path = some om → ∀ oct : Nat, nn.getChild oct = none →
      ∀ oc : Node V, om.getChild oct = some oc →
      ∃ rn, (n.unionRec o).getNodeAt path = some rn ∧
        rn.getChild oct = some oc.cloneRec) :=
  ⟨fun _ _ hom _ ht => union_keeps_o hn ho hom ht,
   fun _ _ hnn _ habs => union_keeps_n hn ho hnn habs,
   fun _ _ _ hnn hom _ hno _ hoc => union_attaches_clone hn ho hnn hom hno hoc⟩

/-- Concrete other node for the C6 witness: route 72 with value 13 and a
child at octet 7 holding route 260 with value 11. -/
def unionOtherChild : Node Nat := Node.mk [260] [] [11] []

def unionOther : Node Nat := Node.mk [72] [7] [13] [unionOtherChild]

theorem unionOtherChild_wf : unionOtherChild.Wf :=
  Node.Wf.mk (by decide) (by decide) (by decide) (by decide) rfl rfl (by simp)

theorem unionOther_wf : unionOther.Wf :=
  Node.Wf.mk (by decide) (by decide) (by decide) (by decide) rfl rfl (by
    intro c hc
    have : c = unionOtherChild := by simpa using hc
    rw [this]
    exact unionOtherChild_wf)

theorem claim_C6_witness :
    (∃ rn, (sampleNode.unionRec unionOther).getNodeAt [] = some rn ∧
      bsTest rn.prefixesBitset 72 = true ∧
      rn.getValByIndex 72 = unionOther.getValByIndex 72) ∧
    (∃ rn, (sampleNode.unionRec unionOther).getNodeAt [] = some rn ∧
      rn.getValByIndex 1 = sampleNode.getValByIndex 1) ∧
    (∃ rn, (sampleNode.unionRec unionOther).getNodeAt [] = some rn ∧
      rn.getChild 7 = some unionOtherChild.cloneRec) :=
  ⟨(claim_C6_union_semantics sampleNode_wf unionOther_wf).1 [] unionOther rfl 72 (by decide),
   (claim_C6_union_semantics sampleNode_wf unionOther_wf).2.1 [] sampleNode rfl 1
     (fun om hom => by
       rw [Node.getNodeAt] at hom
       obtain rfl := Option.some.inj hom
       decide),
   (claim_C6_union_semantics sampleNode_wf unionOther_wf).2.2 [] sampleNode unionOther
     rfl rfl 7 rfl unionOtherChild rfl⟩

/-- Claim C4: for every well-formed stride node `n`, octet `o ≤ 255` and
in-stride prefix length `len ≤ 8` with `o` in canonical (masked) form,
`overlapsPrefix(n, o, len)` returns true iff some stored route's host range
`[loA r, hiA r]` intersects the supplied prefix's host range
`[256 + o, 256 + o + (2^(8-len) - 1)]`, or some child octet lies in the
supplied prefix's octet range `[o, o + (2^(8-len) - 1)]`.  The canonicity
hypothesis `o % 2^(8-len) = 0` matches the spec's input contract (spec §6:
prefixes are stored in canonical masked form); for a non-canonical octet the
code computes bounds from the raw octet and the equivalence fails. -/
theorem claim_C4_overlaps_prefix [Inhabited V] {n : Node V} (hn : n.Wf)
    {octet pfxLen : Nat} (ho : octet ≤ 255) (hl : pfxLen ≤ 8)
    (hmask : octet % 2 ^ (8 - pfxLen) = 0) :
    n.overlapsPfx octet pfxLen = true ↔
      ((∃ r ∈ n.prefixesBitset,
          256 + octet ≤ hiA r ∧ loA r ≤ 256 + octet + (2 ^ (8 - pfxLen) - 1)) ∨
       (∃ c ∈ n.childrenBitset,
          octet ≤ c ∧ c ≤ octet + (2 ^ (8 - pfxLen) - 1))) := by
  have ho2 : octet < 256 := by omega
  have hl2 : pfxLen < 9 := by omega
  obtain ⟨hlog, hoct⟩ := prefixToBaseIndex_arith octet ho2 pfxLen hl2 hmask
  obtain ⟨hp1, hp2⟩ := prefixToBaseIndex_bounds ho hl
  set p := prefixToBaseIndex octet pfxLen with hpdef
  have hloA : loA p = 256 + octet := by
    unfold loA
    rw [hoct]
  have hhiA : hiA p = 256 + octet + (2 ^ (8 - pfxLen) - 1) := by
    unfold hiA
    rw [hoct, hlog]
  have h0 : bsTest n.prefixesBitset 0 = false := by
    rw [bsTest_eq_false_iff]
    intro hmem
    exact absurd (hn.pbBounds 0 hmem).1 (by omega)
  have hA := lpmByIndex_ok_iff h0 hp1
  have hA2 : (n.lpmByIndex p).2.2 = true ↔ ∃ r ∈ n.prefixesBitset, r ∈ chain p := by
    rw [hA]
    constructor
    · rintro ⟨t, htc, htt⟩
      exact ⟨t, bsTest_iff.1 htt, htc⟩
    · rintro ⟨r, hrm, hrc⟩
      exact ⟨r, hrc, bsTest_iff.2 hrm⟩
  have hmasks := hostMasks_arith pfxLen hl2
  have hlor := lor_hostMask_arith octet ho2 pfxLen hl2 hmask
  have hub : lastHostIndexOfPfx octet pfxLen = 256 + octet + (2 ^ (8 - pfxLen) - 1) := by
    unfold lastHostIndexOfPfx octetToBaseIndex firstHostIndex
    rw [hmasks.1, hlor]
    omega
  have hlb : octetToBaseIndex octet = 256 + octet := by
    unfold octetToBaseIndex firstHostIndex
    omega
  have hlub : ∀ r ∈ n.prefixesBitset, lowerUpperBound r = (loA r, hiA r) := by
    intro r hr
    obtain ⟨hr1, hr2⟩ := hn.pbBounds r hr
    have hb := lowerUpperBound_eq_arith (r - 1) (by omega)
    rw [show r - 1 + 1 = r by omega] at hb
    exact hb
  have hscan2 : (n.prefixesBitset.any (fun routeIdx =>
        decide (p <<< 1 ≤ routeIdx) &&
        (decide (octetToBaseIndex octet ≤ (lowerUpperBound routeIdx).1) &&
         decide ((lowerUpperBound routeIdx).2 ≤ lastHostIndexOfPfx octet pfxLen)))) = true ↔
      ∃ r ∈ n.prefixesBitset, 2 * p ≤ r ∧ loA p ≤ loA r ∧ hiA r ≤ hiA p := by
    rw [List.any_eq_true]
    constructor
    · rintro ⟨r, hr, hcond⟩
      simp only [Bool.and_eq_true, decide_eq_true_eq] at hcond
      obtain ⟨h1, h2, h3⟩ := hcond
      rw [hlub r hr] at h2 h3
      rw [hlb] at h2
      rw [hub] at h3
      refine ⟨r, hr, ?_, ?_, ?_⟩
      · rw [Nat.shiftLeft_eq] at h1
        omega
      · rw [hloA]
        exact h2
      · rw [hhiA]
        exact h3
    · rintro ⟨r, hr, h1, h2, h3⟩
      refine ⟨r, hr, ?_⟩
      simp only [Bool.and_eq_true, decide_eq_true_eq]
      rw [hlub r hr, hlb, hub]
      refine ⟨?_, ?_, ?_⟩
      · rw [Nat.shiftLeft_eq]
        omega
      · rw [hloA] at h2
        exact h2
      · rw [hhiA] at h3
        exact h3
  have hscan3 : (n.childrenBitset.any (fun childOctet =>
        decide (octet ≤ childOctet) &&
        (decide (octetToBaseIndex octet ≤ childOctet + firstHostIndex) &&
         decide (childOctet + firstHostIndex ≤ lastHostIndexOfPfx octet pfxLen)))) = true ↔
      ∃ c ∈ n.childrenBitset, octet ≤ c ∧ c ≤ octet + (2 ^ (8 - pfxLen) - 1) := by
    rw [List.any_eq_true]
    have hfh : firstHostIndex = 256 := rfl
    constructor
    · rintro ⟨c, hc, hcond⟩
      simp only [Bool.and_eq_true, decide_eq_true_eq] at hcond
      rw [hlb, hub, hfh] at hcond
      exact ⟨c, hc, hcond.1, by omega⟩
    · rintro ⟨c, hc, h1, h2⟩
      refine ⟨c, hc, ?_⟩
      simp only [Bool.and_eq_true, decide_eq_true_eq]
      rw [hlb, hub, hfh]
      omega
  have hmerge : ∀ r ∈ n.prefixesBitset,
      ((loA p ≤ hiA r ∧ loA r ≤ hiA p) ↔
        (r ∈ chain p ∨ (2 * p ≤ r ∧ loA p ≤ loA r ∧ hiA r ≤ hiA p))) := by
    intro r hr
    obtain ⟨hr1, hr2⟩ := hn.pbBounds r hr
    have hri := range_intersect_iff hp1 hp2 hr1 hr2
    exact ⟨fun hx => hri.1 ⟨hx.2, hx.1⟩, fun hx => ⟨(hri.2 hx).2, (hri.2 hx).1⟩⟩
  rw [← hhiA, ← hloA]
  simp only [Node.overlapsPfx]
  rw [← hpdef]
  split
  next hLPM =>
    simp only [true_iff]
    obtain ⟨r, hrm, hrc⟩ := hA2.1 hLPM
    exact Or.inl ⟨r, hrm, (hmerge r hrm).2 (Or.inl hrc)⟩
  next hLPM =>
    split
    next hS2 =>
      simp only [true_iff]
      obtain ⟨r, hr, hstep⟩ := hscan2.1 hS2
      exact Or.inl ⟨r, hr, (hmerge r hr).2 (Or.inr hstep)⟩
    next hS2 =>
      constructor
      · intro h3
        exact Or.inr (hscan3.1 h3)
      · rintro (hleft | hright)
        · exfalso
          obtain ⟨r, hrm, hint⟩ := hleft
          rcases (hmerge r hrm).1 hint with hchain | hstep
          · exact hLPM (hA2.2 ⟨r, hrm, hchain⟩)
          · exact hS2 (hscan2.2 ⟨r, hrm, hstep⟩)
        · exact hscan3.2 hright

/-- Witness for C4 at the sample node with the canonical prefix 32/6. -/
theorem claim_C4_witness :
    Node.overlapsPfx sampleNode 32 6 = true ↔
      ((∃ r ∈ sampleNode.prefixesBitset,
          256 + 32 ≤ hiA r ∧ loA r ≤ 256 + 32 + (2 ^ (8 - 6) - 1)) ∨
       (∃ c ∈ sampleNode.childrenBitset,
          32 ≤ c ∧ c ≤ 32 + (2 ^ (8 - 6) - 1))) :=
  claim_C4_overlaps_prefix sampleNode_wf (by decide) (by decide) (by decide)

/-- Claim C5: for every pair of well-formed stride nodes (bit-sets sorted and
bounded, slices popcount-consistent, recursively), `overlapsRec(a, b)` equals
`overlapsRec(b, a)`. -/
theorem claim_C5_overlap_symmetry {a b : Node V} (ha : a.Wf) (hb : b.Wf) :
    Node.overlapsRec a b = Node.overlapsRec b a :=
  overlapsRec_symm ha hb

/-- Witness for C5 at two concrete nodes. -/
theorem claim_C5_witness :
    Node.overlapsRec sampleNode unionOther = Node.overlapsRec unionOther sampleNode :=
  claim_C5_overlap_symmetry sampleNode_wf unionOther_wf

end Bart
